import Mathlib

/-!
# newtu: article synchronisation and view state

A shallow embedding of `article.go`, `feed.go` and `model.go`.

* Go slices are lists; a function that mutates a slice in place returns the new list.
* The Go map `seen` of `MergeArticles` is a list of keys with a membership test.
* `time.Time` is reduced to its absolute instant, which is all `Time.After` looks at.
* `sort.Slice` is embedded with the functions of package `sort` it runs (`pdqsort_func` and
  the functions below it); loops without a counter take a bound on their rounds, and each
  bound is shown to be enough where the proofs need the loop to have ended.
* Other code outside the repository (the feed parser, `time.Parse`, the store, the terminal
  widgets, `unicode.ToLower`, the generator behind `breakPatterns_func`) is either a parameter
  or an outcome recorded in `World`.
-/

namespace Newtu

/-! ## article.go -/

/-- Model of `time.Time`: the instant, in nanoseconds since the Unix epoch. -/
structure Time where
  nanos : Int
  deriving DecidableEq, Repr, Inhabited

/-- Model of `time.Time.After`: `t.After u` reports whether `t` is later than `u`. -/
def Time.After (t u : Time) : Bool := decide (u.nanos < t.nanos)

/-- Record `Article` of `article.go`. -/
structure Article where
  Source : String
  Title : String
  Datetime : Time
  Link : String
  deriving DecidableEq, Repr, Inhabited

/-- State of the loops of `MergeArticles`: the key set `seen` and the slice `merged`. -/
structure MergeState where
  seen : List String
  merged : List Article
  deriving DecidableEq, Repr

/-- Body of both `for` loops of `MergeArticles`:
`if _, ok := seen[article.Link]; !ok { seen[article.Link] = struct{}{}; merged = append(merged, article) }`. -/
def mergeStep (st : MergeState) (article : Article) : MergeState :=
  if article.Link ∈ st.seen then st
  else { seen := article.Link :: st.seen, merged := st.merged ++ [article] }

/-- Function `MergeArticles(a, b)`: the loop over `a`, then the loop over `b`, on the same state. -/
def MergeArticles (a b : List Article) : List Article :=
  (b.foldl mergeStep (a.foldl mergeStep { seen := [], merged := [] })).merged

/-! ### Specification-side vocabulary for merging -/

/-- The articles of `xs` whose link is neither in `seen` nor carried by an earlier kept article
of `xs`, in original order. -/
def unseenByLink (seen : List String) : List Article → List Article
  | [] => []
  | x :: xs =>
    if x.Link ∈ seen then unseenByLink seen xs
    else x :: unseenByLink (x.Link :: seen) xs

/-- The first article of `xs` that carries `link`, if any. -/
def firstWithLink (link : String) (xs : List Article) : Option Article :=
  xs.find? (fun x => decide (x.Link = link))

/-- The links of a collection, in order. -/
def links (xs : List Article) : List String := xs.map Article.Link

/-! ## The library sort behind `sort.Slice` -/

section SortDefs

variable {α : Type} [Inhabited α]

/-- Element `data[i]` of a slice. -/
def elem (data : List α) (i : Nat) : α := data.getD i default

/-- Method `Swap(i, j)` of `lessSwap`: exchanges `data[i]` and `data[j]`. -/
def Swap (data : List α) (i j : Nat) : List α :=
  (data.set i (elem data j)).set j (elem data i)

/-- Method `Less(i, j)` of `lessSwap`, for a comparator `less` on elements. -/
def Less (less : α → α → Bool) (data : List α) (i j : Nat) : Bool :=
  less (elem data i) (elem data j)

/-- A counted loop `for i := start; i < start + count; i++ { s = f(i, s) }`. -/
def forUp {σ : Type} (f : Nat → σ → σ) : Nat → Nat → σ → σ
  | 0, _, s => s
  | count + 1, i, s => forUp f count (i + 1) (f i s)

/-- A counted loop `for i := n - 1; i >= 0; i-- { s = f(i, s) }`. -/
def forDown {σ : Type} (f : Nat → σ → σ) : Nat → σ → σ
  | 0, s => s
  | n + 1, s => forDown f n (f n s)

/-- Inner loop of `insertionSort_func`:
`for j := i; j > a && data.Less(j, j-1); j-- { data.Swap(j, j-1) }`. -/
def insertionInner (less : α → α → Bool) (a : Nat) : Nat → List α → List α
  | 0, data => data
  | j + 1, data =>
    if a < j + 1 ∧ Less less data (j + 1) j = true then
      insertionInner less a j (Swap data (j + 1) j)
    else data

/-- Library function `insertionSort_func`: `for i := a + 1; i < b; i++ { ... }`. -/
def insertionSort_func (less : α → α → Bool) (data : List α) (a b : Nat) : List α :=
  forUp (fun i d => insertionInner less a i d) (b - (a + 1)) (a + 1) data

/-- Loop of `siftDown_func`; `fuel` bounds the iterations, `root` grows in each. -/
def siftDownLoop (less : α → α → Bool) (hi first : Nat) : Nat → Nat → List α → List α
  | 0, _, data => data
  | fuel + 1, root, data =>
    if hi ≤ 2 * root + 1 then data
    else
      let child :=
        if 2 * root + 1 + 1 < hi ∧
            Less less data (first + (2 * root + 1)) (first + (2 * root + 1) + 1) = true then
          2 * root + 1 + 1
        else 2 * root + 1
      if Less less data (first + root) (first + child) = true then
        siftDownLoop less hi first fuel child (Swap data (first + root) (first + child))
      else data

/-- Library function `siftDown_func`. -/
def siftDown_func (less : α → α → Bool) (data : List α) (lo hi first : Nat) : List α :=
  siftDownLoop less hi first hi lo data

/-- Library function `heapSort_func`. -/
def heapSort_func (less : α → α → Bool) (data : List α) (a b : Nat) : List α :=
  let first := a
  let lo := 0
  let hi := b - a
  let heaped := forDown (fun i d => siftDown_func less d i hi first) ((hi - 1) / 2 + 1) data
  forDown (fun i d => siftDown_func less (Swap d first (first + i)) lo i first) hi heaped

/-- A loop `for i <= j && cond(i) { i++ }`; gives the final `i`. At most `j + 1 - i` rounds
run, and `fuel` is given at least that. -/
def whileUp (cond : Nat → Bool) (j : Nat) : Nat → Nat → Nat
  | 0, i => i
  | fuel + 1, i => if i ≤ j ∧ cond i = true then whileUp cond j fuel (i + 1) else i

/-- A loop `for i <= j && cond(j) { j-- }` with `i ≥ 1`; gives the final `j`. -/
def whileDown (cond : Nat → Bool) (i : Nat) : Nat → Nat
  | 0 => 0
  | j + 1 => if i ≤ j + 1 ∧ cond (j + 1) = true then whileDown cond i j else j + 1

/-- The loop shared by `partition_func` and `partitionEqual_func`:
`for { for i <= j && left(i) { i++ }; for i <= j && right(j) { j-- }; if i > j { break };
data.Swap(i, j); i++; j-- }`; gives the slice and the final `i` and `j`. -/
def crossLoop (left right : List α → Nat → Bool) :
    Nat → Nat → Nat → List α → List α × Nat × Nat
  | 0, i, j, data => (data, i, j)
  | fuel + 1, i, j, data =>
    let i1 := whileUp (left data) j (j + 1 - i) i
    let j1 := whileDown (right data) i1 j
    if j1 < i1 then (data, i1, j1)
    else crossLoop left right fuel (i1 + 1) (j1 - 1) (Swap data i1 j1)

/-- Library function `partition_func`; gives the slice, `newpivot` and `alreadyPartitioned`.
The scans move `i` while `data.Less(i, a)` and `j` while `!data.Less(j, a)`. -/
def partition_func (less : α → α → Bool) (data : List α) (a b pivot : Nat) :
    List α × Nat × Bool :=
  let d0 := Swap data a pivot
  let i := whileUp (fun i => Less less d0 i a) (b - 1) (b - 1 + 1 - (a + 1)) (a + 1)
  let j := whileDown (fun j => !Less less d0 j a) i (b - 1)
  if j < i then (Swap d0 j a, j, true)
  else
    let r := crossLoop (fun d i => Less less d i a) (fun d j => !Less less d j a)
      (b - a) (i + 1) (j - 1) (Swap d0 i j)
    (Swap r.1 r.2.2 a, r.2.2, false)

/-- Library function `partitionEqual_func`; gives the slice and `newpivot`.
The scans move `i` while `!data.Less(a, i)` and `j` while `data.Less(a, j)`. -/
def partitionEqual_func (less : α → α → Bool) (data : List α) (a b pivot : Nat) :
    List α × Nat :=
  let r := crossLoop (fun d i => !Less less d a i) (fun d j => Less less d a j)
    (b - a) (a + 1) (b - 1) (Swap data a pivot)
  (r.1, r.2.1)

/-- Loop `for i < b && !data.Less(i, i-1) { i++ }` of `partialInsertionSort_func`. -/
def skipOrdered (less : α → α → Bool) (data : List α) (b : Nat) : Nat → Nat → Nat
  | 0, i => i
  | fuel + 1, i =>
    if i < b ∧ Less less data i (i - 1) = false then skipOrdered less data b fuel (i + 1) else i

/-- Loop `for j := i - 1; j >= 1; j-- { if !data.Less(j, j-1) { break }; data.Swap(j, j-1) }`
of `partialInsertionSort_func`, from `j` on. -/
def shiftLeft (less : α → α → Bool) : Nat → List α → List α
  | 0, data => data
  | j + 1, data =>
    if Less less data (j + 1) j = true then shiftLeft less j (Swap data (j + 1) j) else data

/-- Loop `for j := i + 1; j < b; j++ { if !data.Less(j, j-1) { break }; data.Swap(j, j-1) }`
of `partialInsertionSort_func`, from `j` on. -/
def shiftRight (less : α → α → Bool) (b : Nat) : Nat → Nat → List α → List α
  | 0, _, data => data
  | fuel + 1, j, data =>
    if j < b ∧ Less less data j (j - 1) = true then
      shiftRight less b fuel (j + 1) (Swap data j (j - 1))
    else data

/-- Loop `for j := 0; j < maxSteps; j++` of `partialInsertionSort_func`, with `steps` rounds
left. -/
def partialInsertionLoop (less : α → α → Bool) (a b : Nat) :
    Nat → Nat → List α → List α × Bool
  | 0, _, data => (data, false)
  | steps + 1, i, data =>
    let i1 := skipOrdered less data b (b - i) i
    if i1 = b then (data, true)
    else if b - a < 50 then (data, false)
    else
      let d1 := Swap data i1 (i1 - 1)
      let d2 := if 2 ≤ i1 - a then shiftLeft less (i1 - 1) d1 else d1
      let d3 := if 2 ≤ b - i1 then shiftRight less b (b - (i1 + 1)) (i1 + 1) d2 else d2
      partialInsertionLoop less a b steps i1 d3

/-- Library function `partialInsertionSort_func` (`maxSteps = 5`, `shortestShifting = 50`);
gives the slice and whether it is sorted. -/
def partialInsertionSort_func (less : α → α → Bool) (data : List α) (a b : Nat) :
    List α × Bool :=
  partialInsertionLoop less a b 5 (a + 1) data

/-- Library function `bits.Len`: the number of bits of `n`, with `fuel ≥ n`. -/
def bitsLenAux : Nat → Nat → Nat
  | 0, _ => 0
  | fuel + 1, n => if n = 0 then 0 else bitsLenAux fuel (n / 2) + 1

/-- Library function `bits.Len`. -/
def bitsLen (n : Nat) : Nat := bitsLenAux n n

/-- Library function `nextPowerOfTwo`: `1 << bits.Len(length)`. -/
def nextPowerOfTwo (length : Nat) : Nat := 2 ^ bitsLen length

/-- One round of the loop of `breakPatterns_func`; the state is the generator and the slice. -/
def breakPatternsStep (next : Nat → Nat) (a length modulus idx : Nat)
    (i : Nat) (st : Nat × List α) : Nat × List α :=
  let random := next st.1
  let other := random &&& (modulus - 1)
  let other := if length ≤ other then other - length else other
  (random, Swap st.2 (idx - 1 + i) (a + other))

/-- Library function `breakPatterns_func`; `next` is the step of the library generator
`xorshift`, seeded with the length. -/
def breakPatterns_func (next : Nat → Nat) (data : List α) (a b : Nat) : List α :=
  let length := b - a
  if 8 ≤ length then
    let modulus := nextPowerOfTwo length
    let idx := a + (length / 4) * 2 - 1
    (forUp (breakPatternsStep next a length modulus idx) 3 0 (length, data)).2
  else data

/-- Library type `sortedHint`. -/
inductive sortedHint where
  | unknownHint
  | increasingHint
  | decreasingHint
  deriving DecidableEq, Repr

/-- Library function `order2_func`; gives the two indices and the new swap count. -/
def order2_func (less : α → α → Bool) (data : List α) (a b swaps : Nat) : Nat × Nat × Nat :=
  if Less less data b a = true then (b, a, swaps + 1) else (a, b, swaps)

/-- Library function `median_func`; gives the index and the new swap count. -/
def median_func (less : α → α → Bool) (data : List α) (a b c swaps : Nat) : Nat × Nat :=
  let r1 := order2_func less data a b swaps
  let r2 := order2_func less data r1.2.1 c r1.2.2
  let r3 := order2_func less data r1.1 r2.1 r2.2.2
  (r3.2.1, r3.2.2)

/-- Library function `medianAdjacent_func`. -/
def medianAdjacent_func (less : α → α → Bool) (data : List α) (a swaps : Nat) : Nat × Nat :=
  median_func less data (a - 1) a (a + 1) swaps

/-- Library function `choosePivot_func` (`shortestNinther = 50`, `maxSwaps = 12`). -/
def choosePivot_func (less : α → α → Bool) (data : List α) (a b : Nat) : Nat × sortedHint :=
  let l := b - a
  let i := a + l / 4 * 1
  let j := a + l / 4 * 2
  let k := a + l / 4 * 3
  let r : Nat × Nat :=
    if 8 ≤ l then
      if 50 ≤ l then
        let ri := medianAdjacent_func less data i 0
        let rj := medianAdjacent_func less data j ri.2
        let rk := medianAdjacent_func less data k rj.2
        median_func less data ri.1 rj.1 rk.1 rk.2
      else median_func less data i j k 0
    else (j, 0)
  if r.2 = 0 then (r.1, sortedHint.increasingHint)
  else if r.2 = 12 then (r.1, sortedHint.decreasingHint)
  else (r.1, sortedHint.unknownHint)

/-- Loop of `reverseRange_func`: `for i < j { data.Swap(i, j); i++; j-- }`. -/
def reverseLoop : Nat → Nat → Nat → List α → List α
  | 0, _, _, data => data
  | fuel + 1, i, j, data =>
    if i < j then reverseLoop fuel (i + 1) (j - 1) (Swap data i j) else data

/-- Library function `reverseRange_func`. -/
def reverseRange_func (data : List α) (a b : Nat) : List α :=
  reverseLoop (b - a) a (b - 1) data

/-- Library function `pdqsort_func` (`maxInsertion = 12`). One unfolding is one round of its
`for` loop; `fuel` bounds the rounds and nested calls, and `b - a` shrinks in each. -/
def pdqsort_func (less : α → α → Bool) (next : Nat → Nat) :
    Nat → List α → Nat → Nat → Nat → Bool → Bool → List α
  | 0, data, _, _, _, _, _ => data
  | fuel + 1, data, a, b, limit, wasBalanced, wasPartitioned =>
    let length := b - a
    if length ≤ 12 then insertionSort_func less data a b
    else if limit = 0 then heapSort_func less data a b
    else
      let d1 := if wasBalanced then data else breakPatterns_func next data a b
      let limit1 := if wasBalanced then limit else limit - 1
      let ph := choosePivot_func less d1 a b
      let d2 := if ph.2 = sortedHint.decreasingHint then reverseRange_func d1 a b else d1
      let pivot := if ph.2 = sortedHint.decreasingHint then (b - 1) - (ph.1 - a) else ph.1
      let hint :=
        if ph.2 = sortedHint.decreasingHint then sortedHint.increasingHint else ph.2
      let tried : List α × Bool :=
        if wasBalanced ∧ wasPartitioned ∧ hint = sortedHint.increasingHint then
          partialInsertionSort_func less d2 a b
        else (d2, false)
      if tried.2 then tried.1
      else
        let d3 := tried.1
        if 0 < a ∧ Less less d3 (a - 1) pivot = false then
          let pe := partitionEqual_func less d3 a b pivot
          pdqsort_func less next fuel pe.1 pe.2 b limit1 wasBalanced wasPartitioned
        else
          let pr := partition_func less d3 a b pivot
          let mid := pr.2.1
          let leftLen := mid - a
          let rightLen := b - mid
          let balanceThreshold := length / 8
          if leftLen < rightLen then
            let d4 := pdqsort_func less next fuel pr.1 a mid limit1 true true
            pdqsort_func less next fuel d4 (mid + 1) b limit1
              (decide (balanceThreshold ≤ leftLen)) pr.2.2
          else
            let d4 := pdqsort_func less next fuel pr.1 (mid + 1) b limit1 true true
            pdqsort_func less next fuel d4 a mid limit1
              (decide (balanceThreshold ≤ rightLen)) pr.2.2

/-- Library function `sort.Slice`: `pdqsort_func(lessSwap{less, swap}, 0, length, limit)` with
`limit := bits.Len(uint(length))`. -/
def Slice (less : α → α → Bool) (next : Nat → Nat) (x : List α) : List α :=
  pdqsort_func less next (x.length + 1) x 0 x.length (bitsLen x.length) true true

end SortDefs

/-- The step of the library generator `xorshift` on its 64-bit state, in the version
`r ^= r << 13; r ^= r >> 7; r ^= r << 17`. -/
def xorshiftNext (r : Nat) : Nat :=
  let r1 := r ^^^ ((r <<< 13) % 2 ^ 64)
  let r2 := r1 ^^^ (r1 >>> 7)
  r2 ^^^ ((r2 <<< 17) % 2 ^ 64)

/-- Function `SortByDateDesc`: `sort.Slice(articles, less)` with
`less(i, j) = articles[i].Datetime.After(articles[j].Datetime)`. The argument `next` is the
step of the generator `xorshift` of package `sort`, whose shift constants are not the same in
every version of the library. -/
def SortByDateDesc (next : Nat → Nat) (articles : List Article) : List Article :=
  Slice (fun x y => x.Datetime.After y.Datetime) next articles

/-- Model of `strings.ToLower`: the rune map `lower` (the library `unicode.ToLower`) applied to
every rune. -/
def ToLower (lower : Char → Char) (s : String) : String :=
  String.mk (s.data.map lower)

/-- Whether the rune sequence `s` starts with `p`. -/
def startsWith : List Char → List Char → Bool
  | _, [] => true
  | [], _ :: _ => false
  | c :: s, d :: p => decide (c = d) && startsWith s p

/-- Whether `sub` occurs in `s` at some position. -/
def occursIn : List Char → List Char → Bool
  | [], sub => startsWith [] sub
  | c :: s, sub => startsWith (c :: s) sub || occursIn s sub

/-- Model of `strings.Contains`. -/
def Contains (s substr : String) : Bool := occursIn s.data substr.data

/-- Model of `strings.HasPrefix`. -/
def HasPrefix (s pre : String) : Bool := startsWith s.data pre.data

/-- Model of `strings.TrimPrefix`. -/
def TrimPrefix (s pre : String) : String :=
  if HasPrefix s pre then String.mk (s.data.drop pre.data.length) else s

/-- Function `FilterByTitle`; `lower` is the rune map behind `strings.ToLower`. -/
def FilterByTitle (lower : Char → Char) (articles : List Article) (query : String) :
    List Article :=
  if query = "" then articles
  else
    let q := ToLower lower query
    articles.foldl
      (fun filtered a =>
        if Contains (ToLower lower a.Title) q then filtered ++ [a] else filtered) []

/-- Model of `table.Row`, a slice of cell texts. -/
abbrev Row := List String

/-- Model of `strconv.Itoa`. -/
def Itoa (n : Int) : String := toString n

/-- Method `Article.Row`; `humanize` is the library `humanize.Time`. -/
def Article.Row (humanize : Time → String) (a : Article) (position : Int) : Row :=
  [Itoa position, a.Source, humanize a.Datetime, a.Title]

/-- Loop of `ArticlesToRows` from index `i` on: `rows[i] = a.Row(i + 1)`. -/
def rowsFrom (humanize : Time → String) (i : Nat) : List Article → List Row
  | [] => []
  | a :: rest => a.Row humanize ((i : Int) + 1) :: rowsFrom humanize (i + 1) rest

/-- Function `ArticlesToRows`. -/
def ArticlesToRows (humanize : Time → String) (articles : List Article) : List Row :=
  rowsFrom humanize 0 articles

/-- Value of a decimal digit. -/
def digitValue (c : Char) : Option Nat :=
  if 48 ≤ c.toNat ∧ c.toNat ≤ 57 then some (c.toNat - 48) else none

/-- Value of a sequence of decimal digits, left to right, starting from `acc`. -/
def digitsValue (acc : Nat) : List Char → Option Nat
  | [] => some acc
  | c :: cs =>
    match digitValue c with
    | some d => digitsValue (acc * 10 + d) cs
    | none => none

/-- Model of `strconv.Atoi` for a 64-bit `int`: an optional sign, then one or more decimal
digits; a value outside the `int` range is an error. -/
def Atoi (s : String) : Option Int :=
  let signed : Option (Bool × List Char) :=
    match s.data with
    | [] => none
    | c :: cs => if c = '-' then some (true, cs) else if c = '+' then some (false, cs)
      else some (false, c :: cs)
  match signed with
  | none => none
  | some (_, []) => none
  | some (neg, d :: ds) =>
    match digitsValue 0 (d :: ds) with
    | none => none
    | some n =>
      let v : Int := if neg then -(n : Int) else (n : Int)
      if -(2 : Int) ^ 63 ≤ v ∧ v ≤ (2 : Int) ^ 63 - 1 then some v else none

/-! ## feed.go -/

/-- Record `RSSFeed` of `config.go`. -/
structure RSSFeed where
  Source : String
  URL : String
  deriving DecidableEq, Repr

/-- The fields of a parsed feed item that `FetchArticles` reads. -/
structure Item where
  Title : String
  Link : String
  Published : String
  deriving DecidableEq, Repr

/-- The entries `FetchArticles` appends to `errs`. -/
inductive FetchIssue where
  | fetching (source url err : String)
  | parsingDate (title source raw : String)
  deriving DecidableEq, Repr

/-- Calls into the collaborators, in the order they are made. -/
inductive Effect where
  | loadArticles
  | parseURL (url : String)
  | saveArticles (articles : List Article)
  deriving DecidableEq, Repr

/-- Outcomes of everything a sync cycle asks of the outside: the store (`LoadArticles`,
`SaveArticles` of `db.go` against the database), the feed parser, `time.Parse`, and the step
of the generator that the library sort draws from. -/
structure World where
  LoadArticles : Except String (List Article)
  ParseURL : String → Except String (List Item)
  timeParse : String → String → Option Time
  SaveArticles : List Article → Except String Unit
  xorshift : Nat → Nat

/-- Variable `supportedTimeFormats`: `time.RFC1123`, `time.RFC1123Z`, `time.RFC3339`. -/
def supportedTimeFormats : List String :=
  ["Mon, 02 Jan 2006 15:04:05 MST", "Mon, 02 Jan 2006 15:04:05 -0700",
    "2006-01-02T15:04:05Z07:00"]

/-- Function `parseTime`: the first layout that parses wins. -/
def parseTime (w : World) (raw : String) : Option Time :=
  supportedTimeFormats.findSome? (fun layout => w.timeParse layout raw)

/-- State of the loops of `FetchArticles`. -/
structure FetchState where
  articles : List Article
  errs : List FetchIssue
  deriving DecidableEq, Repr

/-- Body of the inner loop of `FetchArticles`, over the items of one feed. -/
def fetchItem (w : World) (feed : RSSFeed) (st : FetchState) (item : Item) : FetchState :=
  if item.Published = "" then st
  else
    match parseTime w item.Published with
    | none =>
      { st with errs := st.errs ++ [FetchIssue.parsingDate item.Title feed.Source item.Published] }
    | some dt =>
      { st with articles := st.articles ++
          [{ Source := feed.Source, Title := item.Title, Datetime := dt, Link := item.Link }] }

/-- Body of the outer loop of `FetchArticles`, over the feeds. -/
def fetchFeed (w : World) (st : FetchState) (feed : RSSFeed) : FetchState :=
  match w.ParseURL feed.URL with
  | .error err => { st with errs := st.errs ++ [FetchIssue.fetching feed.Source feed.URL err] }
  | .ok items => items.foldl (fetchItem w feed) st

/-- The two loops of `FetchArticles`. -/
def fetchLoop (w : World) (feeds : List RSSFeed) : FetchState :=
  feeds.foldl (fetchFeed w) { articles := [], errs := [] }

/-- Function `FetchArticles`: an error, carrying `errs`, when
`len(errs) > 0 && len(articles) == 0`, the articles otherwise. -/
def FetchArticles (w : World) (feeds : List RSSFeed) : Except (List FetchIssue) (List Article) :=
  let st := fetchLoop w feeds
  if 0 < st.errs.length ∧ st.articles.length = 0 then .error st.errs else .ok st.articles

/-! ## model.go -/

/-- A key press, identified by the text `msg.String()` gives for it. -/
structure KeyMsg where
  text : String
  deriving DecidableEq, Repr

/-- The messages `Update` receives. -/
inductive Msg where
  | windowSize (width height : Int)
  | articlesMsg (articles : List Article)
  | fetchErrMsg (err : String)
  | key (k : KeyMsg)
  | other (tag : String)
  deriving DecidableEq, Repr

/-- Duration `time.Minute`, in nanoseconds. -/
def Minute : Nat := 60 * 1000000000

/-- The commands `Update` returns: `nil`, `tea.Quit`, a `tea.Tick` that runs `refreshArticles`
after the delay, or a command made by a widget. -/
inductive Cmd where
  | none
  | quit
  | tickRefresh (delay : Nat)
  | widget (tag : String)
  deriving DecidableEq, Repr

/-- The text input and table widgets of the terminal library, as far as `model.go` uses them. -/
structure Widgets where
  Input : Type
  Table : Type
  newInput : Input
  Value : Input → String
  Reset : Input → Input
  inputUpdate : Input → KeyMsg → Input
  newTable : Table
  SetRows : Table → List Row → Table
  SetHeight : Table → Int → Table
  SetWidth : Table → Int → Table
  Cursor : Table → Int
  tableUpdate : Table → Msg → Table × Cmd
  humanize : Time → String
  lower : Char → Char

/-- Record `model`. The `db` handle is left to `World`; `borderWidth` is the width last given to
the package variable `borderStyle`. -/
structure model (W : Widgets) where
  table : W.Table
  input : W.Input
  config : List RSSFeed
  allArticles : List Article
  displayedArticles : List Article
  searchMode : Bool
  borderWidth : Option Int

/-- What one call of `Update` yields: the new model, the command, and the links handed to
`openURL` during the call. -/
structure Step (W : Widgets) where
  next : model W
  cmd : Cmd
  opened : List String

/-- Function `newModel`. -/
def newModel (W : Widgets) (cfg : List RSSFeed) : model W :=
  { table := W.newTable, input := W.newInput, config := cfg, allArticles := [],
    displayedArticles := [], searchMode := false, borderWidth := none }

/-- Method `setDisplayed`. -/
def model.setDisplayed {W : Widgets} (m : model W) (articles : List Article) : model W :=
  { m with displayedArticles := articles,
           table := W.SetRows m.table (ArticlesToRows W.humanize articles) }

/-- Method `applySearch`. -/
def model.applySearch {W : Widgets} (m : model W) : model W :=
  let query := TrimPrefix (W.Value m.input) "/"
  let shown := FilterByTitle W.lower m.allArticles query
  { m with displayedArticles := shown,
           table := W.SetRows m.table (ArticlesToRows W.humanize shown) }

/-- Method `validateInput`. -/
def model.validateInput {W : Widgets} (m : model W) : model W :=
  let val := W.Value m.input
  if val = "" then m
  else if HasPrefix val "/" then m
  else if (Atoi val).isNone then { m with input := W.Reset m.input }
  else m

/-- Function `scheduleRefresh`: `tea.Tick(15*time.Minute, ...)`. -/
def scheduleRefresh : Cmd := Cmd.tickRefresh (15 * Minute)

/-- Method `handleEnter`. -/
def model.handleEnter {W : Widgets} (m : model W) : Step W :=
  let val := W.Value m.input
  let byCursor : Step W :=
    let cursor := W.Cursor m.table
    if 0 ≤ cursor ∧ cursor < (m.displayedArticles.length : Int) then
      match m.displayedArticles.get? cursor.toNat with
      | some a => { next := m, cmd := Cmd.none, opened := [a.Link] }
      | none => { next := m, cmd := Cmd.none, opened := [] }
    else { next := m, cmd := Cmd.none, opened := [] }
  if val ≠ "" then
    match Atoi val with
    | some jumpIdx =>
      let m1 := { m with input := W.Reset m.input }
      if 1 ≤ jumpIdx ∧ jumpIdx ≤ (m.displayedArticles.length : Int) then
        match m.displayedArticles.get? (jumpIdx - 1).toNat with
        | some a => { next := m1, cmd := Cmd.none, opened := [a.Link] }
        | none => { next := m1, cmd := Cmd.none, opened := [] }
      else { next := m1, cmd := Cmd.none, opened := [] }
    | none => byCursor
  else byCursor

/-- Method `handleKey`. -/
def model.handleKey {W : Widgets} (m : model W) (msg : KeyMsg) : Step W :=
  if msg.text = "ctrl+c" then { next := m, cmd := Cmd.quit, opened := [] }
  else if msg.text = "enter" then m.handleEnter
  else
    let m1 : model W :=
      if msg.text = "/" then { m with searchMode := true }
      else if msg.text = "esc" then
        let m0 := if m.searchMode then
          ({ m with searchMode := false } : model W).setDisplayed m.allArticles else m
        { m0 with input := W.Reset m0.input }
      else m
    let m2 : model W :=
      if m1.searchMode then
        ({ m1 with input := W.inputUpdate m1.input msg } : model W).applySearch
      else
        ({ m1 with input := W.inputUpdate m1.input msg } : model W).validateInput
    let r := W.tableUpdate m2.table (Msg.key msg)
    { next := { m2 with table := r.1 }, cmd := r.2, opened := [] }

/-- Method `Update`. -/
def model.Update {W : Widgets} (m : model W) (msg : Msg) : Step W :=
  match msg with
  | Msg.windowSize width height =>
    { next := { m with table := W.SetWidth (W.SetHeight m.table (height - 3)) width,
                       borderWidth := some width },
      cmd := Cmd.none, opened := [] }
  | Msg.articlesMsg articles =>
    { next := ({ m with allArticles := articles } : model W).setDisplayed articles,
      cmd := scheduleRefresh, opened := [] }
  | Msg.fetchErrMsg _ => { next := m, cmd := scheduleRefresh, opened := [] }
  | Msg.key k => m.handleKey k
  | Msg.other tag =>
    let r := W.tableUpdate m.table (Msg.other tag)
    { next := { m with table := r.1 }, cmd := r.2, opened := [] }

/-- What one sync cycle yields: its message and the collaborator calls it made. -/
structure Cycle where
  msg : Msg
  effects : List Effect
  deriving DecidableEq, Repr

/-- Function `refreshArticles`, the body of the command it returns. -/
def refreshArticles (w : World) (cfg : List RSSFeed) : Cycle :=
  match w.LoadArticles with
  | .error err => { msg := Msg.fetchErrMsg err, effects := [Effect.loadArticles] }
  | .ok cached =>
    let calls := Effect.loadArticles :: cfg.map (fun feed => Effect.parseURL feed.URL)
    match FetchArticles w cfg with
    | .error _ => { msg := Msg.articlesMsg (SortByDateDesc w.xorshift cached), effects := calls }
    | .ok fresh =>
      match w.SaveArticles fresh with
      | .error err =>
        { msg := Msg.fetchErrMsg err, effects := calls ++ [Effect.saveArticles fresh] }
      | .ok _ =>
        { msg := Msg.articlesMsg (SortByDateDesc w.xorshift (MergeArticles fresh cached)),
          effects := calls ++ [Effect.saveArticles fresh] }

/-- The model states `Update` can reach from `newModel`. -/
inductive Reachable (W : Widgets) (cfg : List RSSFeed) : model W → Prop where
  | init : Reachable W cfg (newModel W cfg)
  | step (m : model W) (msg : Msg) : Reachable W cfg m → Reachable W cfg (m.Update msg).next

/-! ## Vocabulary of the claims on the sync cycle -/

/-- Whether every configured feed failed to fetch. -/
def everyFeedFailed (w : World) (cfg : List RSSFeed) : Bool :=
  cfg.all (fun feed =>
    match w.ParseURL feed.URL with
    | .error _ => true
    | .ok _ => false)

/-- The article a fetched feed item gives: none when the item has no publication date or a
date that parses in no layout. -/
def articleOf (w : World) (feed : RSSFeed) (item : Item) : Option Article :=
  if item.Published = "" then none
  else (parseTime w item.Published).map
    (fun dt => { Source := feed.Source, Title := item.Title, Datetime := dt, Link := item.Link })

/-- The fresh articles of a cycle: feed by feed, the dated items of every feed that was
fetched. -/
def obtained (w : World) (cfg : List RSSFeed) : List Article :=
  cfg.flatMap (fun feed =>
    match w.ParseURL feed.URL with
    | .error _ => []
    | .ok items => items.filterMap (articleOf w feed))

/-- The error a fetched feed item gives: one when its publication date is there and parses in
no layout. -/
def issueOf (w : World) (feed : RSSFeed) (item : Item) : Option FetchIssue :=
  if item.Published = "" then none
  else
    match parseTime w item.Published with
    | some _ => none
    | none => some (FetchIssue.parsingDate item.Title feed.Source item.Published)

/-- The errors of a cycle: feed by feed, the fetch failure of a feed or the date errors of its
items. -/
def recorded (w : World) (cfg : List RSSFeed) : List FetchIssue :=
  cfg.flatMap (fun feed =>
    match w.ParseURL feed.URL with
    | .error err => [FetchIssue.fetching feed.Source feed.URL err]
    | .ok items => items.filterMap (issueOf w feed))

/-- The calls every cycle with a loaded cache makes first: the load, then one fetch per feed. -/
def loadAndFetch (cfg : List RSSFeed) : List Effect :=
  Effect.loadArticles :: cfg.map (fun feed => Effect.parseURL feed.URL)

/-- The cache-only cycle: the cached set sorted descending is published, the store is not
written. -/
def cacheOnlyCycle (w : World) (cfg : List RSSFeed) (cached : List Article) : Cycle :=
  { msg := Msg.articlesMsg (SortByDateDesc w.xorshift cached), effects := loadAndFetch cfg }

/-- The success cycle: fresh is persisted, fresh-then-cached is merged, sorted and published. -/
def successCycle (w : World) (cfg : List RSSFeed) (fresh cached : List Article) : Cycle :=
  { msg := Msg.articlesMsg (SortByDateDesc w.xorshift (MergeArticles fresh cached)),
    effects := loadAndFetch cfg ++ [Effect.saveArticles fresh] }

/-- The cycle of a failed write: the fresh articles were handed to the store, the error is the
message, nothing is published. -/
def writeFailedCycle (cfg : List RSSFeed) (fresh : List Article) (err : String) : Cycle :=
  { msg := Msg.fetchErrMsg err, effects := loadAndFetch cfg ++ [Effect.saveArticles fresh] }

/-! ## Vocabulary of the sort proofs -/

section SortVocabulary

variable {α : Type} [Inhabited α]

/-- The comparator `less` is the strict order of the integer rank `ord`. -/
def Ranked (less : α → α → Bool) (ord : α → Int) : Prop :=
  ∀ x y, less x y = true ↔ ord x < ord y

/-- The slice `data[a:b]` is in non-decreasing rank order. -/
def SortedOn (ord : α → Int) (data : List α) (a b : Nat) : Prop :=
  ∀ i j, a ≤ i → i < j → j < b → ord (elem data i) ≤ ord (elem data j)

/-- The slice `after` is `before` with the elements of `[a, b)` rearranged among themselves. -/
structure Shuffle (a b : Nat) (before after : List α) : Prop where
  perm : after.Perm before
  length : after.length = before.length
  outside : ∀ k, k < a ∨ b ≤ k → elem after k = elem before k
  inside : ∀ k, a ≤ k → k < b → ∃ k2, a ≤ k2 ∧ k2 < b ∧ elem after k = elem before k2

/-- Either `a = 0` or no element of `data[a:b]` ranks below `data[a-1]`. -/
def Floored (ord : α → Int) (data : List α) (a b : Nat) : Prop :=
  a = 0 ∨ ∀ k, a ≤ k → k < b → ord (elem data (a - 1)) ≤ ord (elem data k)

end SortVocabulary

section HeapVocabulary

variable {α : Type} [Inhabited α]

/-- Heap order on `data[first + k]` for the nodes `k ≥ lo` with children below `hi`: no child
ranks above its parent. -/
def HeapFrom (ord : α → Int) (data : List α) (first lo hi : Nat) : Prop :=
  ∀ k c, lo ≤ k → (c = 2 * k + 1 ∨ c = 2 * k + 2) → c < hi →
    ord (elem data (first + c)) ≤ ord (elem data (first + k))

/-- Heap order from `lo` on except at the node `root`, whose children do not rank above the
parent of `root`. -/
def HeapExcept (ord : α → Int) (data : List α) (first lo hi root : Nat) : Prop :=
  (∀ k c, lo ≤ k → k ≠ root → (c = 2 * k + 1 ∨ c = 2 * k + 2) → c < hi →
    ord (elem data (first + c)) ≤ ord (elem data (first + k))) ∧
  (∀ p c, lo ≤ p → (root = 2 * p + 1 ∨ root = 2 * p + 2) →
    (c = 2 * root + 1 ∨ c = 2 * root + 2) → c < hi →
    ord (elem data (first + c)) ≤ ord (elem data (first + p)))

end HeapVocabulary

/-! ## Concrete inputs -/

/-- A cached article. -/
def cachedNews : Article :=
  { Source := "blog", Title := "Old news", Datetime := { nanos := 1 }, Link := "https://a/1" }

/-- A second article with the link of `cachedNews` and another title. -/
def cachedNewsAgain : Article :=
  { Source := "blog", Title := "Old news, again", Datetime := { nanos := 2 },
    Link := "https://a/1" }

/-- A feed. -/
def feedB : RSSFeed := { Source := "B", URL := "https://b/rss" }

/-- The article `FetchArticles` builds from the one item of `feedB` below. -/
def freshNews : Article :=
  { Source := "B", Title := "Go News", Datetime := { nanos := 5 }, Link := "https://b/1" }

/-- A world in which the cache loads, the feed delivers one dated item and the write fails. -/
def saveFailsWorld : World :=
  { LoadArticles := .ok [cachedNews],
    ParseURL := fun _ => .ok [{ Title := "Go News", Link := "https://b/1", Published := "now" }],
    timeParse := fun _ _ => some { nanos := 5 },
    SaveArticles := fun _ => .error "disk full",
    xorshift := xorshiftNext }

/-- A world in which the feed is fetched but the date of its only item parses in no layout. -/
def badDateWorld : World :=
  { LoadArticles := .ok [cachedNews],
    ParseURL := fun _ => .ok [{ Title := "Go News", Link := "https://b/1", Published := "soon" }],
    timeParse := fun _ _ => none,
    SaveArticles := fun _ => .ok (),
    xorshift := xorshiftNext }

/-- A world in which the cache loads and no feed can be fetched. -/
def feedsDownWorld : World :=
  { LoadArticles := .ok [cachedNews],
    ParseURL := fun _ => .error "no route to host",
    timeParse := fun _ _ => none,
    SaveArticles := fun _ => .ok (),
    xorshift := xorshiftNext }

/-- A world in which the cache cannot be read. -/
def loadFailsWorld : World :=
  { LoadArticles := .error "querying articles",
    ParseURL := fun _ => .ok [],
    timeParse := fun _ _ => none,
    SaveArticles := fun _ => .ok (),
    xorshift := xorshiftNext }

/-- The titles of the twenty articles of `twentyArticles`. -/
def twentyNames : List String :=
  ["a", "b", "c", "d", "e", "f", "g", "h", "i", "j", "k", "l", "m", "n", "o", "p", "q", "r",
    "s", "t"]

/-- Twenty articles titled `a` to `t` on three instants: article number `i` is dated `i % 3`. -/
def twentyArticles : List Article :=
  (List.range 20).map (fun i =>
    { Source := "blog", Title := twentyNames.getD i "",
      Datetime := { nanos := ((i % 3 : Nat) : Int) }, Link := twentyNames.getD i "" })

/-- A minimal text input and table: a typed rune is appended to the value, `backspace` deletes
the last rune, every other key leaves the value alone; the table keeps its rows and a cursor. -/
def plainWidgets : Widgets :=
  { Input := String
    Table := List Row × Int
    newInput := ""
    Value := fun i => i
    Reset := fun _ => ""
    inputUpdate := fun i k =>
      if k.text.length = 1 then i ++ k.text
      else if k.text = "backspace" then String.mk i.data.dropLast
      else i
    newTable := ([], 0)
    SetRows := fun t rows => (rows, t.2)
    SetHeight := fun t _ => t
    SetWidth := fun t _ => t
    Cursor := fun t => t.2
    tableUpdate := fun t _ => (t, Cmd.none)
    humanize := fun t => toString t.nanos
    lower := Char.toLower }

/-- The state after `/`, then `x`, then the arrival of a sync result with one article. -/
def searchThenRefresh : model plainWidgets :=
  ((((newModel plainWidgets []).Update (Msg.key { text := "/" })).next.Update
    (Msg.key { text := "x" })).next.Update (Msg.articlesMsg [cachedNews])).next

/-- A state with five displayed articles and the input buffer `3`. -/
def jumpState : model plainWidgets :=
  { table := ([], 0), input := "3", config := [],
    allArticles := [cachedNews],
    displayedArticles := [freshNews, freshNews, cachedNews, freshNews, freshNews],
    searchMode := false, borderWidth := none }

/-! ## Lemmas on merging -/

theorem foldl_mergeStep (xs : List Article) (st : MergeState)
    (hst : ∀ l, l ∈ st.seen ↔ l ∈ links st.merged) :
    (xs.foldl mergeStep st).merged = st.merged ++ unseenByLink st.seen xs ∧
    (∀ l, l ∈ (xs.foldl mergeStep st).seen ↔ l ∈ links (xs.foldl mergeStep st).merged) := by
  induction xs generalizing st with
  | nil => simpa [unseenByLink] using hst
  | cons x xs ih =>
    by_cases hx : x.Link ∈ st.seen
    · have hs : mergeStep st x = st := by simp [mergeStep, hx]
      simpa [List.foldl_cons, hs, unseenByLink, hx] using ih st hst
    · have hs : mergeStep st x =
          { seen := x.Link :: st.seen, merged := st.merged ++ [x] } := by
        simp [mergeStep, hx]
      have hst2 : ∀ l, l ∈ (mergeStep st x).seen ↔ l ∈ links (mergeStep st x).merged := by
        intro l
        rw [hs]
        simp only [links, List.mem_cons, List.map_append, List.map_cons, List.map_nil,
          List.mem_append, List.mem_singleton]
        have := hst l
        simp only [links] at this
        rw [this]
        tauto
      have := ih (mergeStep st x) hst2
      rw [List.foldl_cons]
      refine ⟨?_, this.2⟩
      rw [this.1, hs]
      simp [unseenByLink, hx]

/-- The two loops of `MergeArticles` behave as one pass over `a ++ b`. -/
theorem MergeArticles_eq_unseen (a b : List Article) :
    MergeArticles a b = unseenByLink [] (a ++ b) := by
  unfold MergeArticles
  rw [← List.foldl_append]
  have := (foldl_mergeStep (a ++ b) { seen := [], merged := [] } (by simp [links])).1
  simpa using this

theorem unseenByLink_append (seen : List String) (xs ys : List Article) :
    ∃ seen2, (∀ l, l ∈ seen2 ↔ l ∈ seen ∨ l ∈ links xs) ∧
      unseenByLink seen (xs ++ ys) = unseenByLink seen xs ++ unseenByLink seen2 ys := by
  induction xs generalizing seen with
  | nil => exact ⟨seen, by simp [links], by simp [unseenByLink]⟩
  | cons x xs ih =>
    by_cases hx : x.Link ∈ seen
    · obtain ⟨s2, h1, h2⟩ := ih seen
      refine ⟨s2, ?_, ?_⟩
      · intro l
        rw [h1 l]
        simp only [links, List.map_cons, List.mem_cons]
        constructor
        · rintro (h | h)
          · exact Or.inl h
          · exact Or.inr (Or.inr h)
        · rintro (h | h | h)
          · exact Or.inl h
          · exact Or.inl (h ▸ hx)
          · exact Or.inr h
      · simp [unseenByLink, hx, h2]
    · obtain ⟨s2, h1, h2⟩ := ih (x.Link :: seen)
      refine ⟨s2, ?_, ?_⟩
      · intro l
        rw [h1 l]
        simp only [links, List.map_cons, List.mem_cons]
        tauto
      · simp [unseenByLink, hx, h2]

/-- The kept articles depend on `seen` only as a set. -/
theorem unseenByLink_congr (s1 s2 : List String) (h : ∀ l, l ∈ s1 ↔ l ∈ s2) (xs : List Article) :
    unseenByLink s1 xs = unseenByLink s2 xs := by
  induction xs generalizing s1 s2 with
  | nil => rfl
  | cons x xs ih =>
    by_cases hx : x.Link ∈ s1
    · have hx2 : x.Link ∈ s2 := (h _).1 hx
      simp [unseenByLink, hx, hx2, ih s1 s2 h]
    · have hx2 : x.Link ∉ s2 := fun h2 => hx ((h _).2 h2)
      have h3 : ∀ l, l ∈ x.Link :: s1 ↔ l ∈ x.Link :: s2 := by
        intro l
        simp [h l]
      simp [unseenByLink, hx, hx2, ih _ _ h3]

theorem unseenByLink_filter (link : String) (seen : List String) (xs : List Article) :
    (unseenByLink seen xs).filter (fun x => decide (x.Link = link)) =
      if link ∈ seen then [] else (firstWithLink link xs).toList := by
  induction xs generalizing seen with
  | nil => simp [unseenByLink, firstWithLink]
  | cons x xs ih =>
    by_cases hx : x.Link ∈ seen
    · by_cases hl : link ∈ seen
      · simp [unseenByLink, hx, ih, hl]
      · have hne : ¬ x.Link = link := fun h => hl (h ▸ hx)
        simp [unseenByLink, hx, ih, hl, firstWithLink, List.find?_cons, hne]
    · by_cases hxl : x.Link = link
      · have hl : link ∉ seen := fun h => hx (hxl ▸ h)
        have hl2 : link ∈ x.Link :: seen := by simp [hxl]
        simp [unseenByLink, hx, ih, hl, hl2, firstWithLink, List.find?_cons, hxl]
      · by_cases hl : link ∈ seen
        · have hl2 : link ∈ x.Link :: seen := List.mem_cons_of_mem _ hl
          simp [unseenByLink, hx, ih, hl, hl2, hxl]
        · have hl2 : link ∉ x.Link :: seen := by
            simp only [List.mem_cons, not_or]
            exact ⟨fun h => hxl h.symm, hl⟩
          simp [unseenByLink, hx, ih, hl, hl2, firstWithLink, List.find?_cons, hxl]

theorem unseenByLink_nodup (seen : List String) (xs : List Article) :
    (links (unseenByLink seen xs)).Nodup ∧ ∀ l ∈ links (unseenByLink seen xs), l ∉ seen := by
  induction xs generalizing seen with
  | nil => simp [unseenByLink, links]
  | cons x xs ih =>
    by_cases hx : x.Link ∈ seen
    · simpa [unseenByLink, hx] using ih seen
    · obtain ⟨h1, h2⟩ := ih (x.Link :: seen)
      simp only [unseenByLink, hx, if_false, links, List.map_cons, List.nodup_cons,
        List.mem_cons]
      simp only [links] at h1 h2
      refine ⟨⟨fun h => ?_, h1⟩, ?_⟩
      · exact h2 _ h (List.mem_cons_self _ _)
      · rintro l (h | h)
        · exact h ▸ hx
        · exact fun hs => h2 l h (List.mem_cons_of_mem _ hs)

theorem unseenByLink_of_nodup (seen : List String) (xs : List Article)
    (hnd : (links xs).Nodup) (hdis : ∀ l ∈ links xs, l ∉ seen) :
    unseenByLink seen xs = xs := by
  induction xs generalizing seen with
  | nil => rfl
  | cons x xs ih =>
    simp only [links, List.map_cons, List.nodup_cons, List.mem_cons] at hnd hdis
    have hx : x.Link ∉ seen := hdis _ (Or.inl rfl)
    simp only [unseenByLink, hx, if_false]
    congr 1
    apply ih _ hnd.2
    intro l hl
    simp only [List.mem_cons, not_or]
    refine ⟨fun h => hnd.1 (h ▸ hl), hdis l (Or.inr hl)⟩

theorem firstWithLink_append (link : String) (a b : List Article) :
    firstWithLink link (a ++ b) = (firstWithLink link a).orElse (fun _ => firstWithLink link b) := by
  unfold firstWithLink
  rw [List.find?_append]
  cases List.find? (fun x => decide (x.Link = link)) a <;> rfl

/-! ## Lemmas on the library sort -/

section SortLemmas

variable {α : Type} [Inhabited α]

theorem length_Swap (data : List α) (i j : Nat) : (Swap data i j).length = data.length := by
  simp [Swap]

theorem elem_Swap (data : List α) (i j k : Nat) (hi : i < data.length) (hj : j < data.length) :
    elem (Swap data i j) k =
      if k = j then elem data i else if k = i then elem data j else elem data k := by
  unfold Swap elem
  simp only [List.getD_eq_getElem?_getD, List.getElem?_set, List.length_set]
  by_cases h1 : k = j
  · subst h1
    simp [hj]
  · by_cases h2 : k = i
    · subst h2
      have : ¬ j = k := fun h => h1 h.symm
      simp [this, hi, h1]
    · have h3 : ¬ j = k := fun h => h1 h.symm
      have h4 : ¬ i = k := fun h => h2 h.symm
      simp [h1, h2, h3, h4]

theorem elem_eq_getElem (data : List α) (i : Nat) (hi : i < data.length) :
    elem data i = data[i] := by
  simp [elem, List.getD_eq_getElem?_getD, hi]

theorem Swap_perm [DecidableEq α] (data : List α) (i j : Nat) (hi : i < data.length)
    (hj : j < data.length) : (Swap data i j).Perm data := by
  rw [List.perm_iff_count]
  intro c
  unfold Swap
  have hj2 : j < (data.set i (elem data j)).length := by simpa using hj
  rw [List.count_set _ _ _ _ hj2, List.count_set _ _ _ _ hi]
  have e1 : (data.set i (elem data j))[j] = data[j] := by
    rw [List.getElem_set]
    split
    · rename_i h
      subst h
      exact elem_eq_getElem data i hi
    · rfl
  rw [e1, elem_eq_getElem data j hj, elem_eq_getElem data i hi]
  have hpos : (if (data[i] == c) = true then 1 else 0) ≤ List.count c data := by
    split
    · rename_i h
      have : data[i] = c := by simpa using h
      rw [← this]
      exact List.count_pos_iff.2 (List.getElem_mem _)
    · exact Nat.zero_le _
  omega

theorem Shuffle.refl (a b : Nat) (data : List α) : Shuffle a b data data :=
  ⟨List.Perm.refl _, rfl, fun _ _ => rfl, fun k h1 h2 => ⟨k, h1, h2, rfl⟩⟩

theorem Shuffle.trans {a b : Nat} {d1 d2 d3 : List α} (h12 : Shuffle a b d1 d2)
    (h23 : Shuffle a b d2 d3) : Shuffle a b d1 d3 := by
  refine ⟨h23.perm.trans h12.perm, h23.length.trans h12.length, ?_, ?_⟩
  · intro k hk
    rw [h23.outside k hk, h12.outside k hk]
  · intro k h1 h2
    obtain ⟨k2, h3, h4, h5⟩ := h23.inside k h1 h2
    obtain ⟨k3, h6, h7, h8⟩ := h12.inside k2 h3 h4
    exact ⟨k3, h6, h7, h5.trans h8⟩

theorem Shuffle.mono {a b a2 b2 : Nat} {d1 d2 : List α} (h : Shuffle a b d1 d2)
    (ha : a2 ≤ a) (hb : b ≤ b2) : Shuffle a2 b2 d1 d2 := by
  refine ⟨h.perm, h.length, ?_, ?_⟩
  · intro k hk
    exact h.outside k (by omega)
  · intro k h1 h2
    by_cases hk : a ≤ k ∧ k < b
    · obtain ⟨k2, h3, h4, h5⟩ := h.inside k hk.1 hk.2
      exact ⟨k2, by omega, by omega, h5⟩
    · exact ⟨k, h1, h2, h.outside k (by omega)⟩

theorem Shuffle.swap [DecidableEq α] (a b : Nat) (data : List α) (i j : Nat)
    (hai : a ≤ i) (hib : i < b) (haj : a ≤ j) (hjb : j < b) (hb : b ≤ data.length) :
    Shuffle a b data (Swap data i j) := by
  have hi : i < data.length := by omega
  have hj : j < data.length := by omega
  refine ⟨Swap_perm data i j hi hj, length_Swap data i j, ?_, ?_⟩
  · intro k hk
    rw [elem_Swap data i j k hi hj]
    have h1 : k ≠ j := by omega
    have h2 : k ≠ i := by omega
    simp [h1, h2]
  · intro k h1 h2
    rw [elem_Swap data i j k hi hj]
    by_cases h3 : k = j
    · exact ⟨i, hai, hib, by rw [if_pos h3]⟩
    · by_cases h4 : k = i
      · exact ⟨j, haj, hjb, by rw [if_neg h3, if_pos h4]⟩
      · exact ⟨k, h1, h2, by rw [if_neg h3, if_neg h4]⟩

/-- Whatever holds of every element of `[a, b)` before a shuffle holds of every one after. -/
theorem Shuffle.forall_inside {a b : Nat} {d1 d2 : List α} (h : Shuffle a b d1 d2)
    (P : α → Prop) (hP : ∀ k, a ≤ k → k < b → P (elem d1 k)) :
    ∀ k, a ≤ k → k < b → P (elem d2 k) := by
  intro k h1 h2
  obtain ⟨k2, h3, h4, h5⟩ := h.inside k h1 h2
  rw [h5]
  exact hP k2 h3 h4

theorem Shuffle.floored {ord : α → Int} {a b a2 b2 : Nat} {d1 d2 : List α}
    (h : Shuffle a2 b2 d1 d2) (ha : a ≤ a2) (hb : b2 ≤ b) (hf : Floored ord d1 a b) :
    Floored ord d2 a b := by
  by_cases h0 : a = 0
  · exact Or.inl h0
  · rcases hf with h1 | hf
    · exact absurd h1 h0
    · right
      have hm : Shuffle a b d1 d2 := h.mono ha hb
      have e : elem d2 (a - 1) = elem d1 (a - 1) := h.outside _ (by omega)
      rw [e]
      exact hm.forall_inside (fun x => ord (elem d1 (a - 1)) ≤ ord x) hf

theorem Less_iff {less : α → α → Bool} {ord : α → Int} (h : Ranked less ord) (data : List α)
    (i j : Nat) : Less less data i j = true ↔ ord (elem data i) < ord (elem data j) :=
  h _ _

theorem Less_false_iff {less : α → α → Bool} {ord : α → Int} (h : Ranked less ord)
    (data : List α) (i j : Nat) :
    Less less data i j = false ↔ ord (elem data j) ≤ ord (elem data i) := by
  rw [← Bool.not_eq_true, Less_iff h, not_lt]

theorem forUp_induct {σ : Type} (f : Nat → σ → σ) (P : Nat → σ → Prop) (count start : Nat)
    (s : σ) (h0 : P start s)
    (hstep : ∀ i t, start ≤ i → i < start + count → P i t → P (i + 1) (f i t)) :
    P (start + count) (forUp f count start s) := by
  induction count generalizing start s with
  | zero => simpa [forUp] using h0
  | succ n ih =>
    have h1 : P (start + 1) (f start s) := hstep start s (le_refl _) (by omega) h0
    have := ih (start + 1) (f start s) h1
      (fun i t hi1 hi2 hP => hstep i t (by omega) (by omega) hP)
    simpa [forUp, Nat.add_assoc, Nat.add_comm 1 n] using this

end SortLemmas

section InsertionLemmas

variable {α : Type} [Inhabited α]

theorem insertionInner_spec [DecidableEq α] {less : α → α → Bool} {ord : α → Int} (h : Ranked less ord)
    (a i : Nat) : ∀ (j : Nat) (data : List α), i < data.length → a ≤ j → j ≤ i →
      (∀ p q, a ≤ p → p < q → q ≤ i → p ≠ j → q ≠ j →
        ord (elem data p) ≤ ord (elem data q)) →
      (∀ q, j < q → q ≤ i → ord (elem data j) < ord (elem data q)) →
      Shuffle a (i + 1) data (insertionInner less a j data) ∧
      SortedOn ord (insertionInner less a j data) a (i + 1) := by
  intro j
  induction j with
  | zero =>
    intro data _ ha _ H1 H2
    refine ⟨Shuffle.refl _ _ _, ?_⟩
    intro p q hp hpq hq
    simp only [insertionInner]
    by_cases hp0 : p = 0
    · subst hp0
      exact le_of_lt (H2 q (by omega) (by omega))
    · exact H1 p q hp hpq (by omega) hp0 (by omega)
  | succ j ih =>
    intro data hlen ha hji H1 H2
    have hj1 : j + 1 < data.length := by omega
    have hj0 : j < data.length := by omega
    by_cases hc : a < j + 1 ∧ Less less data (j + 1) j = true
    · have hlt : ord (elem data (j + 1)) < ord (elem data j) := (Less_iff h _ _ _).1 hc.2
      have he : ∀ k, elem (Swap data (j + 1) j) k =
          if k = j then elem data (j + 1) else if k = j + 1 then elem data j
          else elem data k := fun k => elem_Swap data (j + 1) j k hj1 hj0
      have hrec := ih (Swap data (j + 1) j) (by rw [length_Swap]; exact hlen) (by omega)
        (by omega)
        (by
          intro p q hp hpq hq hpj hqj
          rw [he p, he q, if_neg hpj, if_neg hqj]
          by_cases hp1 : p = j + 1
          · subst hp1
            have hq1 : ¬ q = j + 1 := by omega
            rw [if_pos rfl, if_neg hq1]
            exact H1 j q (by omega) (by omega) hq (by omega) hq1
          · rw [if_neg hp1]
            by_cases hq1 : q = j + 1
            · subst hq1
              rw [if_pos rfl]
              exact H1 p j hp (by omega) (by omega) hp1 (by omega)
            · rw [if_neg hq1]
              exact H1 p q hp hpq hq hp1 hq1)
        (by
          intro q hjq hq
          rw [he j, he q, if_pos rfl, if_neg (by omega : ¬ q = j)]
          by_cases hq1 : q = j + 1
          · rw [if_pos hq1]
            exact hlt
          · rw [if_neg hq1]
            exact H2 q (by omega) hq)
      have hs : Shuffle a (i + 1) data (Swap data (j + 1) j) :=
        Shuffle.swap a (i + 1) data (j + 1) j (by omega) (by omega) (by omega) (by omega)
          (by omega)
      have hu : insertionInner less a (j + 1) data =
          insertionInner less a j (Swap data (j + 1) j) := by
        rw [insertionInner, if_pos hc]
      rw [hu]
      exact ⟨hs.trans hrec.1, hrec.2⟩
    · have hu : insertionInner less a (j + 1) data = data := by
        rw [insertionInner, if_neg hc]
      rw [hu]
      refine ⟨Shuffle.refl _ _ _, ?_⟩
      intro p q hp hpq hq
      by_cases hp1 : p = j + 1
      · subst hp1
        exact le_of_lt (H2 q hpq (by omega))
      · by_cases hq1 : q = j + 1
        · subst hq1
          have haj : a < j + 1 := by omega
          have hnl : Less less data (j + 1) j = false := by
            cases hL : Less less data (j + 1) j
            · rfl
            · exact absurd ⟨haj, hL⟩ hc
          have hle : ord (elem data j) ≤ ord (elem data (j + 1)) :=
            (Less_false_iff h _ _ _).1 hnl
          by_cases hpj : p = j
          · subst hpj
            exact hle
          · exact le_trans (H1 p j hp (by omega) (by omega) hp1 (by omega)) hle
        · exact H1 p q hp hpq (by omega) hp1 hq1

theorem SortedOn.extend {less : α → α → Bool} {ord : α → Int} (h : Ranked less ord)
    {data : List α} {a i : Nat} (hs : SortedOn ord data a i) (hai : a + 1 ≤ i)
    (hl : Less less data i (i - 1) = false) : SortedOn ord data a (i + 1) := by
  intro p q hp hpq hq
  have hle : ord (elem data (i - 1)) ≤ ord (elem data i) := (Less_false_iff h _ _ _).1 hl
  by_cases hqi : q = i
  · subst hqi
    by_cases hp1 : p = q - 1
    · subst hp1
      exact hle
    · exact le_trans (hs p (q - 1) hp (by omega) (by omega)) hle
  · exact hs p q hp hpq (by omega)

theorem SortedOn.of_agree {ord : α → Int} {d1 d2 : List α} {a b : Nat}
    (hs : SortedOn ord d1 a b) (he : ∀ k, a ≤ k → k < b → elem d2 k = elem d1 k) :
    SortedOn ord d2 a b := by
  intro p q hp hpq hq
  rw [he p hp (by omega), he q (by omega) hq]
  exact hs p q hp hpq hq

theorem SortedOn.narrow {ord : α → Int} {data : List α} {a b a2 b2 : Nat}
    (hs : SortedOn ord data a b) (ha : a ≤ a2) (hb : b2 ≤ b) : SortedOn ord data a2 b2 :=
  fun p q hp hpq hq => hs p q (by omega) hpq (by omega)

theorem insertionSort_func_spec [DecidableEq α] {less : α → α → Bool} {ord : α → Int} (h : Ranked less ord)
    (data : List α) (a b : Nat) (hb : b ≤ data.length) :
    Shuffle a b data (insertionSort_func less data a b) ∧
    SortedOn ord (insertionSort_func less data a b) a b := by
  unfold insertionSort_func
  by_cases hab : a + 1 ≤ b
  · have key := forUp_induct (fun i d => insertionInner less a i d)
      (fun i d => Shuffle a b data d ∧ SortedOn ord d a i) (b - (a + 1)) (a + 1) data
      ⟨Shuffle.refl _ _ _, fun p q hp hpq hq => by omega⟩
      (by
        intro i t hi1 hi2 hP
        have hlen : i < t.length := by rw [hP.1.length]; omega
        have := insertionInner_spec h a i i t hlen (by omega) (le_refl _)
          (fun p q hp hpq hq hpi hqi => hP.2 p q hp hpq (by omega))
          (fun q hq1 hq2 => by omega)
        exact ⟨hP.1.trans (this.1.mono (le_refl _) (by omega)), this.2⟩)
    have e : a + 1 + (b - (a + 1)) = b := by omega
    rw [e] at key
    exact key
  · have e : b - (a + 1) = 0 := by omega
    rw [e]
    exact ⟨Shuffle.refl _ _ _, fun p q hp hpq hq => by omega⟩

/-- With a floor below `a`, the shift that runs down to index 1 stops at `a` like the inner
loop of the insertion sort. -/
theorem shiftLeft_eq_insertionInner {less : α → α → Bool} {ord : α → Int}
    (h : Ranked less ord) (a : Nat) : ∀ (j : Nat) (data : List α), j < data.length → a ≤ j →
      (0 < a → ord (elem data (a - 1)) ≤ ord (elem data j)) →
      shiftLeft less j data = insertionInner less a j data := by
  intro j
  induction j with
  | zero =>
    intro data _ _ _
    rfl
  | succ j ih =>
    intro data hlen ha hfl
    by_cases haj : a = j + 1
    · have hnl : Less less data (j + 1) j = false := by
        rw [Less_false_iff h]
        have := hfl (by omega)
        rw [haj] at this
        simpa using this
      have hc : ¬ (a < j + 1 ∧ Less less data (j + 1) j = true) := by
        intro hc
        omega
      rw [shiftLeft, insertionInner, if_neg hc, hnl]
      simp
    · have ha2 : a < j + 1 := by omega
      by_cases hL : Less less data (j + 1) j = true
      · rw [shiftLeft, insertionInner, if_pos hL, if_pos ⟨ha2, hL⟩]
        apply ih _ (by rw [length_Swap]; omega) (by omega)
        intro ha0
        rw [elem_Swap data (j + 1) j _ hlen (by omega),
          elem_Swap data (j + 1) j _ hlen (by omega)]
        rw [if_neg (by omega : ¬ a - 1 = j), if_neg (by omega : ¬ a - 1 = j + 1), if_pos rfl]
        exact hfl ha0
      · have hc : ¬ (a < j + 1 ∧ Less less data (j + 1) j = true) := fun hc => hL hc.2
        rw [shiftLeft, insertionInner, if_neg hL, if_neg hc]

end InsertionLemmas

section PartitionLemmas

variable {α : Type} [Inhabited α]

theorem whileUp_spec (cond : Nat → Bool) (j : Nat) : ∀ (fuel i : Nat), j + 1 - i ≤ fuel →
    i ≤ whileUp cond j fuel i ∧
    (i ≤ j + 1 → whileUp cond j fuel i ≤ j + 1) ∧
    (∀ k, i ≤ k → k < whileUp cond j fuel i → cond k = true) ∧
    (whileUp cond j fuel i ≤ j → cond (whileUp cond j fuel i) = false) := by
  intro fuel
  induction fuel with
  | zero =>
    intro i hf
    simp only [whileUp]
    exact ⟨le_refl _, fun h => h, fun k h1 h2 => by omega, fun h => by omega⟩
  | succ fuel ih =>
    intro i hf
    by_cases hc : i ≤ j ∧ cond i = true
    · have hu : whileUp cond j (fuel + 1) i = whileUp cond j fuel (i + 1) := by
        rw [whileUp, if_pos hc]
      rw [hu]
      obtain ⟨h1, h2, h3, h4⟩ := ih (i + 1) (by omega)
      refine ⟨by omega, fun _ => h2 (by omega), ?_, h4⟩
      intro k hk1 hk2
      by_cases hki : k = i
      · rw [hki]
        exact hc.2
      · exact h3 k (by omega) hk2
    · have hu : whileUp cond j (fuel + 1) i = i := by
        rw [whileUp, if_neg hc]
      rw [hu]
      refine ⟨le_refl _, fun h => h, fun k h1 h2 => by omega, ?_⟩
      intro hij
      cases hci : cond i
      · rfl
      · exact absurd ⟨hij, hci⟩ hc

theorem whileDown_spec (cond : Nat → Bool) (i : Nat) (hi : 1 ≤ i) : ∀ j : Nat,
    whileDown cond i j ≤ j ∧
    (i ≤ j + 1 → i ≤ whileDown cond i j + 1) ∧
    (∀ k, whileDown cond i j < k → k ≤ j → cond k = true) ∧
    (i ≤ whileDown cond i j → cond (whileDown cond i j) = false) := by
  intro j
  induction j with
  | zero =>
    simp only [whileDown]
    exact ⟨le_refl _, fun h => h, fun k h1 h2 => by omega, fun h => by omega⟩
  | succ j ih =>
    by_cases hc : i ≤ j + 1 ∧ cond (j + 1) = true
    · have hu : whileDown cond i (j + 1) = whileDown cond i j := by
        rw [whileDown, if_pos hc]
      rw [hu]
      obtain ⟨h1, h2, h3, h4⟩ := ih
      refine ⟨by omega, fun _ => h2 hc.1, ?_, h4⟩
      intro k hk1 hk2
      by_cases hkj : k = j + 1
      · rw [hkj]
        exact hc.2
      · exact h3 k hk1 (by omega)
    · have hu : whileDown cond i (j + 1) = j + 1 := by
        rw [whileDown, if_neg hc]
      rw [hu]
      refine ⟨le_refl _, fun h => by omega, fun k h1 h2 => by omega, ?_⟩
      intro hij
      cases hci : cond (j + 1)
      · rfl
      · exact absurd ⟨hij, hci⟩ hc

theorem crossLoop_spec [DecidableEq α] (left right : List α → Nat → Bool) (L : α → Prop) (pv : α)
    (a b : Nat)
    (hL : ∀ d k, elem d a = pv → (left d k = true ↔ L (elem d k)))
    (hR : ∀ d k, elem d a = pv → (right d k = true ↔ ¬ L (elem d k))) :
    ∀ (fuel i j : Nat) (data : List α), elem data a = pv → b ≤ data.length → a + 1 ≤ i →
      i ≤ j + 1 → j < b → j + 1 - i ≤ fuel →
      (∀ k, a + 1 ≤ k → k < i → L (elem data k)) →
      (∀ k, j < k → k < b → ¬ L (elem data k)) →
      ∀ r, crossLoop left right fuel i j data = r →
        Shuffle (a + 1) b data r.1 ∧ r.2.1 = r.2.2 + 1 ∧ a + 1 ≤ r.2.1 ∧ r.2.1 ≤ b ∧
        (∀ k, a + 1 ≤ k → k < r.2.1 → L (elem r.1 k)) ∧
        (∀ k, r.2.1 ≤ k → k < b → ¬ L (elem r.1 k)) := by
  intro fuel
  induction fuel with
  | zero =>
    intro i j data _ _ hai hij hjb hf HL HR r hr
    simp only [crossLoop] at hr
    subst hr
    refine ⟨Shuffle.refl _ _ _, by simp only; omega, hai, by simp only; omega, HL, ?_⟩
    intro k hk1 hk2
    exact HR k (by simp only at hk1; omega) hk2
  | succ fuel ih =>
    intro i j data hpv hlen hai hij hjb hf HL HR r hr
    obtain ⟨u1, u2, u3, u4⟩ := whileUp_spec (left data) j (j + 1 - i) i (le_refl _)
    have u2 := u2 hij
    obtain ⟨w1, w2, w3, w4⟩ := whileDown_spec (right data)
      (whileUp (left data) j (j + 1 - i) i) (by omega) j
    have w2 := w2 u2
    rw [crossLoop] at hr
    generalize hi1 : whileUp (left data) j (j + 1 - i) i = i1 at *
    generalize hj1 : whileDown (right data) i1 j = j1 at *
    have HL1 : ∀ k, a + 1 ≤ k → k < i1 → L (elem data k) := by
      intro k hk1 hk2
      by_cases hki : k < i
      · exact HL k hk1 hki
      · exact (hL data k hpv).1 (u3 k (by omega) hk2)
    have HR1 : ∀ k, j1 < k → k < b → ¬ L (elem data k) := by
      intro k hk1 hk2
      by_cases hkj : j < k
      · exact HR k hkj hk2
      · exact (hR data k hpv).1 (w3 k hk1 (by omega))
    by_cases hc : j1 < i1
    · rw [if_pos hc] at hr
      subst hr
      refine ⟨Shuffle.refl _ _ _, by simp only; omega, by simp only; omega,
        by simp only; omega, HL1, ?_⟩
      intro k hk1 hk2
      exact HR1 k (by simp only at hk1; omega) hk2
    · rw [if_neg hc] at hr
      have hle : i1 ≤ j1 := by omega
      have hnL : ¬ L (elem data i1) := by
        intro hl
        have := (hL data i1 hpv).2 hl
        rw [u4 (by omega)] at this
        exact Bool.noConfusion this
      have hLj : L (elem data j1) := by
        by_contra hl
        have := (hR data j1 hpv).2 hl
        rw [w4 hle] at this
        exact Bool.noConfusion this
      have hne : i1 ≠ j1 := by
        intro he
        rw [he] at hnL
        exact hnL hLj
      have hi1len : i1 < data.length := by omega
      have hj1len : j1 < data.length := by omega
      have he : ∀ k, elem (Swap data i1 j1) k =
          if k = j1 then elem data i1 else if k = i1 then elem data j1 else elem data k :=
        fun k => elem_Swap data i1 j1 k hi1len hj1len
      have hs : Shuffle (a + 1) b data (Swap data i1 j1) :=
        Shuffle.swap (a + 1) b data i1 j1 (by omega) (by omega) (by omega) (by omega) hlen
      have hrec := ih (i1 + 1) (j1 - 1) (Swap data i1 j1)
        (by rw [hs.outside a (by omega)]; exact hpv)
        (by rw [length_Swap]; exact hlen) (by omega) (by omega) (by omega) (by omega)
        (by
          intro k hk1 hk2
          rw [he k, if_neg (by omega : ¬ k = j1)]
          by_cases hki : k = i1
          · rw [if_pos hki]
            exact hLj
          · rw [if_neg hki]
            exact HL1 k hk1 (by omega))
        (by
          intro k hk1 hk2
          rw [he k]
          by_cases hkj : k = j1
          · rw [if_pos hkj]
            exact hnL
          · rw [if_neg hkj, if_neg (by omega : ¬ k = i1)]
            exact HR1 k (by omega) hk2)
        r hr
      exact ⟨hs.trans hrec.1, hrec.2⟩

theorem partition_func_spec [DecidableEq α] {less : α → α → Bool} {ord : α → Int} (h : Ranked less ord)
    (data : List α) (a b pivot : Nat) (ha : a ≤ pivot) (hp : pivot < b)
    (hb : b ≤ data.length) :
    ∀ r, partition_func less data a b pivot = r →
      Shuffle a b data r.1 ∧ a ≤ r.2.1 ∧ r.2.1 < b ∧
      (∀ k, a ≤ k → k < r.2.1 → ord (elem r.1 k) < ord (elem r.1 r.2.1)) ∧
      (∀ k, r.2.1 < k → k < b → ord (elem r.1 r.2.1) ≤ ord (elem r.1 k)) := by
  intro r hr
  have hs0 : Shuffle a b data (Swap data a pivot) :=
    Shuffle.swap a b data a pivot (le_refl _) (by omega) ha hp hb
  have hlen0 : b ≤ (Swap data a pivot).length := by rw [length_Swap]; exact hb
  have hcross := crossLoop_spec (fun d i => Less less d i a) (fun d j => !Less less d j a)
    (fun x => ord x < ord (elem (Swap data a pivot) a)) (elem (Swap data a pivot) a) a b
    (by
      intro d k hd
      show Less less d k a = true ↔ ord (elem d k) < ord (elem (Swap data a pivot) a)
      rw [← hd]
      exact Less_iff h d k a)
    (by
      intro d k hd
      show (!Less less d k a) = true ↔ ¬ (ord (elem d k) < ord (elem (Swap data a pivot) a))
      rw [← hd, ← Less_iff h d k a]
      cases Less less d k a <;> simp)
    (b - a + 1) (a + 1) (b - 1) (Swap data a pivot) rfl hlen0 (le_refl _) (by omega)
    (by omega) (by omega) (fun k h1 h2 => by omega) (fun k h1 h2 => by omega) _ rfl
  have hfun : r.1 = Swap (crossLoop (fun d i => Less less d i a)
        (fun d j => !Less less d j a) (b - a + 1) (a + 1) (b - 1) (Swap data a pivot)).1
        (crossLoop (fun d i => Less less d i a)
        (fun d j => !Less less d j a) (b - a + 1) (a + 1) (b - 1) (Swap data a pivot)).2.2 a ∧
      r.2.1 = (crossLoop (fun d i => Less less d i a)
        (fun d j => !Less less d j a) (b - a + 1) (a + 1) (b - 1) (Swap data a pivot)).2.2 := by
    rw [← hr, partition_func, crossLoop]
    simp only
    split <;> simp
  generalize crossLoop (fun d i => Less less d i a) (fun d j => !Less less d j a)
    (b - a + 1) (a + 1) (b - 1) (Swap data a pivot) = c at hcross hfun
  obtain ⟨c1, c2, c3, c4, c5, c6⟩ := hcross
  obtain ⟨f1, f2⟩ := hfun
  have hca : elem c.1 a = elem (Swap data a pivot) a := c1.outside a (by omega)
  have hclen : c.1.length = data.length := by rw [c1.length, length_Swap]
  have he : ∀ k, elem r.1 k =
      if k = a then elem c.1 c.2.2 else if k = c.2.2 then elem c.1 a else elem c.1 k := by
    intro k
    rw [f1]
    exact elem_Swap c.1 c.2.2 a k (by omega) (by omega)
  have hmid : elem r.1 r.2.1 = elem c.1 a := by
    rw [he, f2]
    by_cases hca2 : c.2.2 = a
    · rw [if_pos hca2, hca2]
    · rw [if_neg hca2, if_pos rfl]
  refine ⟨?_, by omega, by omega, ?_, ?_⟩
  · rw [f1]
    refine hs0.trans ((c1.mono (by omega) (le_refl _)).trans ?_)
    exact Shuffle.swap a b c.1 c.2.2 a (by omega) (by omega) (le_refl _) (by omega)
      (by omega)
  · intro k hk1 hk2
    rw [hmid, hca, he k]
    by_cases hka : k = a
    · rw [if_pos hka]
      exact c5 c.2.2 (by omega) (by omega)
    · rw [if_neg hka, if_neg (by omega : ¬ k = c.2.2)]
      exact c5 k (by omega) (by omega)
  · intro k hk1 hk2
    rw [hmid, hca, he k, if_neg (by omega : ¬ k = a), if_neg (by omega : ¬ k = c.2.2)]
    exact not_lt.1 (c6 k (by omega) hk2)

theorem partitionEqual_func_spec [DecidableEq α] {less : α → α → Bool} {ord : α → Int} (h : Ranked less ord)
    (data : List α) (a b pivot : Nat) (ha : a ≤ pivot) (hp : pivot < b)
    (hb : b ≤ data.length) :
    ∀ r, partitionEqual_func less data a b pivot = r →
      Shuffle a b data r.1 ∧ a + 1 ≤ r.2 ∧ r.2 ≤ b ∧
      (∀ k, a ≤ k → k < r.2 → ord (elem r.1 k) ≤ ord (elem data pivot)) ∧
      (∀ k, r.2 ≤ k → k < b → ord (elem data pivot) < ord (elem r.1 k)) := by
  intro r hr
  have hs0 : Shuffle a b data (Swap data a pivot) :=
    Shuffle.swap a b data a pivot (le_refl _) (by omega) ha hp hb
  have hlen0 : b ≤ (Swap data a pivot).length := by rw [length_Swap]; exact hb
  have hpv : elem (Swap data a pivot) a = elem data pivot := by
    rw [elem_Swap data a pivot a (by omega) (by omega)]
    by_cases hap : a = pivot
    · rw [if_pos hap, hap]
    · rw [if_neg hap, if_pos rfl]
  have hcross := crossLoop_spec (fun d i => !Less less d a i) (fun d j => Less less d a j)
    (fun x => ord x ≤ ord (elem data pivot)) (elem data pivot) a b
    (by
      intro d k hd
      show (!Less less d a k) = true ↔ ord (elem d k) ≤ ord (elem data pivot)
      rw [← hd, ← not_lt, ← Less_iff h d a k]
      cases Less less d a k <;> simp)
    (by
      intro d k hd
      show Less less d a k = true ↔ ¬ (ord (elem d k) ≤ ord (elem data pivot))
      rw [← hd, not_le]
      exact Less_iff h d a k)
    (b - a) (a + 1) (b - 1) (Swap data a pivot) hpv hlen0 (le_refl _) (by omega)
    (by omega) (by omega) (fun k h1 h2 => by omega) (fun k h1 h2 => by omega) _ rfl
  have hfun : r = ((crossLoop (fun d i => !Less less d a i) (fun d j => Less less d a j)
        (b - a) (a + 1) (b - 1) (Swap data a pivot)).1,
      (crossLoop (fun d i => !Less less d a i) (fun d j => Less less d a j)
        (b - a) (a + 1) (b - 1) (Swap data a pivot)).2.1) := by
    rw [← hr, partitionEqual_func]
  generalize crossLoop (fun d i => !Less less d a i) (fun d j => Less less d a j)
    (b - a) (a + 1) (b - 1) (Swap data a pivot) = c at hcross hfun
  obtain ⟨c1, c2, c3, c4, c5, c6⟩ := hcross
  subst hfun
  refine ⟨hs0.trans (c1.mono (by omega) (le_refl _)), c3, c4, ?_, ?_⟩
  · intro k hk1 hk2
    by_cases hka : k = a
    · rw [hka, c1.outside a (by omega), hpv]
    · exact c5 k (by omega) hk2
  · intro k hk1 hk2
    exact not_le.1 (c6 k hk1 hk2)

end PartitionLemmas

section PatternLemmas

variable {α : Type} [Inhabited α]

theorem skipOrdered_spec {less : α → α → Bool} {ord : α → Int} (h : Ranked less ord)
    (data : List α) (a b : Nat) : ∀ (fuel i : Nat), a + 1 ≤ i → i ≤ b →
      SortedOn ord data a i → b - i ≤ fuel →
      i ≤ skipOrdered less data b fuel i ∧ skipOrdered less data b fuel i ≤ b ∧
      SortedOn ord data a (skipOrdered less data b fuel i) ∧
      (skipOrdered less data b fuel i < b →
        Less less data (skipOrdered less data b fuel i)
          (skipOrdered less data b fuel i - 1) = true) := by
  intro fuel
  induction fuel with
  | zero =>
    intro i hai hib hs hf
    simp only [skipOrdered]
    exact ⟨le_refl _, hib, hs, fun hlt => by omega⟩
  | succ fuel ih =>
    intro i hai hib hs hf
    by_cases hc : i < b ∧ Less less data i (i - 1) = false
    · have hu : skipOrdered less data b (fuel + 1) i = skipOrdered less data b fuel (i + 1) := by
        rw [skipOrdered, if_pos hc]
      rw [hu]
      obtain ⟨h1, h2, h3, h4⟩ := ih (i + 1) (by omega) (by omega) (hs.extend h hai hc.2)
        (by omega)
      exact ⟨by omega, h2, h3, h4⟩
    · have hu : skipOrdered less data b (fuel + 1) i = i := by
        rw [skipOrdered, if_neg hc]
      rw [hu]
      refine ⟨le_refl _, hib, hs, ?_⟩
      intro hlt
      cases hL : Less less data i (i - 1)
      · exact absurd ⟨hlt, hL⟩ hc
      · rfl

theorem shiftRight_shuffle [DecidableEq α] (less : α → α → Bool) (lo b : Nat) :
    ∀ (fuel j : Nat) (data : List α), lo + 1 ≤ j → b ≤ data.length →
      Shuffle lo b data (shiftRight less b fuel j data) := by
  intro fuel
  induction fuel with
  | zero =>
    intro j data _ _
    exact Shuffle.refl _ _ _
  | succ fuel ih =>
    intro j data hj hb
    by_cases hc : j < b ∧ Less less data j (j - 1) = true
    · rw [shiftRight, if_pos hc]
      have hs : Shuffle lo b data (Swap data j (j - 1)) :=
        Shuffle.swap lo b data j (j - 1) (by omega) hc.1 (by omega) (by omega) hb
      exact hs.trans (ih (j + 1) _ (by omega) (by rw [length_Swap]; exact hb))
    · rw [shiftRight, if_neg hc]
      exact Shuffle.refl _ _ _

theorem partialInsertionLoop_spec [DecidableEq α] {less : α → α → Bool} {ord : α → Int}
    (h : Ranked less ord) (a b : Nat) : ∀ (steps i : Nat) (data : List α),
      b ≤ data.length → a + 1 ≤ i → i ≤ b → SortedOn ord data a i → Floored ord data a b →
      ∀ r, partialInsertionLoop less a b steps i data = r →
        Shuffle a b data r.1 ∧ (r.2 = true → SortedOn ord r.1 a b) := by
  intro steps
  induction steps with
  | zero =>
    intro i data _ _ _ _ _ r hr
    simp only [partialInsertionLoop] at hr
    subst hr
    exact ⟨Shuffle.refl _ _ _, fun hf => Bool.noConfusion hf⟩
  | succ steps ih =>
    intro i data hb hai hib hs hfl r hr
    obtain ⟨s1, s2, s3, s4⟩ := skipOrdered_spec h data a b (b - i) i hai hib hs (le_refl _)
    rw [partialInsertionLoop] at hr
    generalize skipOrdered less data b (b - i) i = i1 at *
    by_cases h1 : i1 = b
    · rw [if_pos h1] at hr
      subst hr
      exact ⟨Shuffle.refl _ _ _, fun _ => h1 ▸ s3⟩
    · rw [if_neg h1] at hr
      by_cases h2 : b - a < 50
      · rw [if_pos h2] at hr
        subst hr
        exact ⟨Shuffle.refl _ _ _, fun hf => Bool.noConfusion hf⟩
      · rw [if_neg h2] at hr
        dsimp only at hr
        have hi1b : i1 < b := by omega
        have hd1 : Shuffle a b data (Swap data i1 (i1 - 1)) :=
          Shuffle.swap a b data i1 (i1 - 1) (by omega) hi1b (by omega) (by omega) hb
        have hd1len : (Swap data i1 (i1 - 1)).length = data.length := length_Swap _ _ _
        have hd1s : SortedOn ord (Swap data i1 (i1 - 1)) a (i1 - 1) := by
          refine (s3.narrow (le_refl _) (by omega)).of_agree ?_
          intro k hk1 hk2
          rw [elem_Swap data i1 (i1 - 1) k (by omega) (by omega),
            if_neg (by omega : ¬ k = i1 - 1), if_neg (by omega : ¬ k = i1)]
        have hd1f : Floored ord (Swap data i1 (i1 - 1)) a b :=
          hd1.floored (le_refl _) (le_refl _) hfl
        -- the shift to the left
        have hd2 : ∀ d2, (if 2 ≤ i1 - a then shiftLeft less (i1 - 1) (Swap data i1 (i1 - 1))
              else Swap data i1 (i1 - 1)) = d2 →
            Shuffle a b (Swap data i1 (i1 - 1)) d2 ∧ SortedOn ord d2 a i1 := by
          intro d2 hd2
          by_cases h3 : 2 ≤ i1 - a
          · rw [if_pos h3] at hd2
            have hfloor : 0 < a →
                ord (elem (Swap data i1 (i1 - 1)) (a - 1)) ≤
                  ord (elem (Swap data i1 (i1 - 1)) (i1 - 1)) := by
              intro ha0
              rcases hd1f with h0 | hf
              · omega
              · exact hf (i1 - 1) (by omega) (by omega)
            rw [shiftLeft_eq_insertionInner h a (i1 - 1) _ (by omega) (by omega) hfloor] at hd2
            have := insertionInner_spec h a (i1 - 1) (i1 - 1) (Swap data i1 (i1 - 1))
              (by omega) (by omega) (le_refl _)
              (fun p q hp hpq hq hp1 hq1 => hd1s p q hp hpq (by omega))
              (fun q hq1 hq2 => by omega)
            rw [hd2] at this
            have e : i1 - 1 + 1 = i1 := by omega
            rw [e] at this
            exact ⟨this.1.mono (le_refl _) (by omega), this.2⟩
          · rw [if_neg h3] at hd2
            subst hd2
            exact ⟨Shuffle.refl _ _ _, fun p q hp hpq hq => by omega⟩
        generalize (if 2 ≤ i1 - a then shiftLeft less (i1 - 1) (Swap data i1 (i1 - 1))
              else Swap data i1 (i1 - 1)) = d2 at hr hd2
        obtain ⟨hd2s, hd2o⟩ := hd2 d2 rfl
        have hd2len : b ≤ d2.length := by rw [hd2s.length, hd1len]; exact hb
        have hd3 : ∀ d3, (if 2 ≤ b - i1 then shiftRight less b (b - (i1 + 1)) (i1 + 1) d2
              else d2) = d3 → Shuffle i1 b d2 d3 := by
          intro d3 hd3
          by_cases h4 : 2 ≤ b - i1
          · rw [if_pos h4] at hd3
            rw [← hd3]
            exact shiftRight_shuffle less i1 b _ _ _ (le_refl _) hd2len
          · rw [if_neg h4] at hd3
            rw [← hd3]
            exact Shuffle.refl _ _ _
        generalize (if 2 ≤ b - i1 then shiftRight less b (b - (i1 + 1)) (i1 + 1) d2
              else d2) = d3 at hr hd3
        have hd3s := hd3 d3 rfl
        have hall : Shuffle a b data d3 :=
          hd1.trans (hd2s.trans (hd3s.mono (by omega) (le_refl _)))
        have hrec := ih i1 d3 (by rw [hall.length]; exact hb) (by omega) (by omega)
          (hd2o.of_agree (fun k hk1 hk2 => hd3s.outside k (Or.inl hk2)))
          (hall.floored (le_refl _) (le_refl _) hfl) r hr
        exact ⟨hall.trans hrec.1, hrec.2⟩

theorem partialInsertionSort_func_spec [DecidableEq α] {less : α → α → Bool} {ord : α → Int}
    (h : Ranked less ord) (data : List α) (a b : Nat) (hab : a + 1 ≤ b)
    (hb : b ≤ data.length) (hfl : Floored ord data a b) :
    Shuffle a b data (partialInsertionSort_func less data a b).1 ∧
    ((partialInsertionSort_func less data a b).2 = true →
      SortedOn ord (partialInsertionSort_func less data a b).1 a b) :=
  partialInsertionLoop_spec h a b 5 (a + 1) data hb (le_refl _) hab
    (fun p q hp hpq hq => by omega) hfl _ rfl

theorem reverseLoop_shuffle [DecidableEq α] (a b : Nat) : ∀ (fuel i j : Nat) (data : List α),
    a ≤ i → j < b → b ≤ data.length → Shuffle a b data (reverseLoop fuel i j data) := by
  intro fuel
  induction fuel with
  | zero =>
    intro i j data _ _ _
    exact Shuffle.refl _ _ _
  | succ fuel ih =>
    intro i j data hi hj hb
    by_cases hc : i < j
    · rw [reverseLoop, if_pos hc]
      have hs : Shuffle a b data (Swap data i j) :=
        Shuffle.swap a b data i j hi (by omega) (by omega) hj hb
      exact hs.trans (ih (i + 1) (j - 1) _ (by omega) (by omega)
        (by rw [length_Swap]; exact hb))
    · rw [reverseLoop, if_neg hc]
      exact Shuffle.refl _ _ _

theorem reverseRange_func_shuffle [DecidableEq α] (data : List α) (a b : Nat) (hab : a + 1 ≤ b)
    (hb : b ≤ data.length) : Shuffle a b data (reverseRange_func data a b) :=
  reverseLoop_shuffle a b _ a (b - 1) data (le_refl _) (by omega) hb

/-- The bound on the rounds of the shift to the right is enough: a larger one changes
nothing. -/
theorem shiftRight_fuel (less : α → α → Bool) (b : Nat) : ∀ (fuel j : Nat) (data : List α),
    b - j ≤ fuel → shiftRight less b (fuel + 1) j data = shiftRight less b fuel j data := by
  intro fuel
  induction fuel with
  | zero =>
    intro j data hf
    have hc : ¬ (j < b ∧ Less less data j (j - 1) = true) := fun hc => by omega
    simp only [shiftRight, if_neg hc]
  | succ fuel ih =>
    intro j data hf
    by_cases hc : j < b ∧ Less less data j (j - 1) = true
    · rw [shiftRight, if_pos hc, ih (j + 1) _ (by omega)]
      conv_rhs => rw [shiftRight, if_pos hc]
    · rw [shiftRight, if_neg hc]
      conv_rhs => rw [shiftRight, if_neg hc]

/-- The bound on the rounds of the reversal is enough: a larger one changes nothing. -/
theorem reverseLoop_fuel : ∀ (fuel i j : Nat) (data : List α),
    j - i ≤ 2 * fuel → reverseLoop (fuel + 1) i j data = reverseLoop fuel i j data := by
  intro fuel
  induction fuel with
  | zero =>
    intro i j data hf
    have hc : ¬ i < j := by omega
    simp only [reverseLoop, if_neg hc]
  | succ fuel ih =>
    intro i j data hf
    by_cases hc : i < j
    · rw [reverseLoop, if_pos hc, ih (i + 1) (j - 1) _ (by omega)]
      conv_rhs => rw [reverseLoop, if_pos hc]
    · rw [reverseLoop, if_neg hc]
      conv_rhs => rw [reverseLoop, if_neg hc]

/-- The number `bitsLen n` is the number of bits of `n`: `n` is below `2 ^ bitsLen n`. -/
theorem lt_two_pow_bitsLenAux : ∀ (fuel n : Nat), n ≤ fuel → n < 2 ^ bitsLenAux fuel n := by
  intro fuel
  induction fuel with
  | zero =>
    intro n hn
    simp only [bitsLenAux]
    omega
  | succ fuel ih =>
    intro n hn
    by_cases h0 : n = 0
    · rw [bitsLenAux, if_pos h0, h0]
      simp
    · rw [bitsLenAux, if_neg h0, pow_succ]
      have := ih (n / 2) (by omega)
      omega

theorem bitsLenAux_le : ∀ (fuel n : Nat), 1 ≤ n → n ≤ fuel → 2 ^ bitsLenAux fuel n ≤ 2 * n := by
  intro fuel
  induction fuel with
  | zero =>
    intro n h1 h2
    omega
  | succ fuel ih =>
    intro n h1 h2
    rw [bitsLenAux, if_neg (by omega : ¬ n = 0), pow_succ]
    by_cases hn : n / 2 = 0
    · rw [hn]
      have : bitsLenAux fuel 0 = 0 := by
        cases fuel with
        | zero => rfl
        | succ f => simp [bitsLenAux]
      rw [this]
      omega
    · have := ih (n / 2) (by omega) (by omega)
      omega

theorem nextPowerOfTwo_le (length : Nat) (h : 1 ≤ length) :
    nextPowerOfTwo length ≤ 2 * length :=
  bitsLenAux_le length length h (le_refl _)

theorem breakPatterns_func_shuffle [DecidableEq α] (next : Nat → Nat) (data : List α) (a b : Nat)
    (hb : b ≤ data.length) : Shuffle a b data (breakPatterns_func next data a b) := by
  unfold breakPatterns_func
  by_cases h8 : 8 ≤ b - a
  · simp only [if_pos h8]
    have key := forUp_induct
      (breakPatternsStep next a (b - a) (nextPowerOfTwo (b - a)) (a + (b - a) / 4 * 2 - 1))
      (fun _ (st : Nat × List α) => Shuffle a b data st.2) 3 0 (b - a, data)
      (Shuffle.refl _ _ _)
      (by
        intro i st hi1 hi2 hP
        simp only [breakPatternsStep]
        refine hP.trans ?_
        have hm := nextPowerOfTwo_le (b - a) (by omega)
        have hand : next st.1 &&& (nextPowerOfTwo (b - a) - 1) ≤ nextPowerOfTwo (b - a) - 1 :=
          Nat.and_le_right
        refine Shuffle.swap a b st.2 _ _ (by omega) (by omega) (by omega) ?_
          (by rw [hP.length]; exact hb)
        split <;> omega)
    exact key
  · simp only [if_neg h8]
    exact Shuffle.refl _ _ _

theorem order2_func_cases (less : α → α → Bool) (data : List α) (a b s : Nat) :
    ((order2_func less data a b s).1 = a ∧ (order2_func less data a b s).2.1 = b) ∨
    ((order2_func less data a b s).1 = b ∧ (order2_func less data a b s).2.1 = a) := by
  unfold order2_func
  split
  · exact Or.inr ⟨rfl, rfl⟩
  · exact Or.inl ⟨rfl, rfl⟩

theorem median_func_mem (less : α → α → Bool) (data : List α) (a b c s : Nat) :
    (median_func less data a b c s).1 = a ∨ (median_func less data a b c s).1 = b ∨
      (median_func less data a b c s).1 = c := by
  unfold median_func
  simp only
  rcases order2_func_cases less data a b s with h1 | h1 <;>
  rcases order2_func_cases less data (order2_func less data a b s).2.1 c
      (order2_func less data a b s).2.2 with h2 | h2 <;>
  rcases order2_func_cases less data (order2_func less data a b s).1
      (order2_func less data (order2_func less data a b s).2.1 c
        (order2_func less data a b s).2.2).1
      (order2_func less data (order2_func less data a b s).2.1 c
        (order2_func less data a b s).2.2).2.2 with h3 | h3 <;>
  · rw [h3.2]
    first
      | (rw [h1.1]; simp)
      | (rw [h2.1, h1.2]; simp)
      | (rw [h2.1]; simp)

theorem choosePivot_func_bounds (less : α → α → Bool) (data : List α) (a b : Nat)
    (h8 : 8 ≤ b - a) :
    a ≤ (choosePivot_func less data a b).1 ∧ (choosePivot_func less data a b).1 < b := by
  have hfst : ∀ (r : Nat × Nat),
      (if r.2 = 0 then (r.1, sortedHint.increasingHint)
        else if r.2 = 12 then (r.1, sortedHint.decreasingHint)
        else (r.1, sortedHint.unknownHint)).1 = r.1 := by
    intro r
    split
    · rfl
    · split <;> rfl
  unfold choosePivot_func
  simp only [hfst, if_pos h8]
  by_cases h50 : 50 ≤ b - a
  · simp only [if_pos h50]
    unfold medianAdjacent_func
    generalize hsi : (median_func less data (a + (b - a) / 4 * 1 - 1) (a + (b - a) / 4 * 1)
      (a + (b - a) / 4 * 1 + 1) 0) = ri
    have mi := median_func_mem less data (a + (b - a) / 4 * 1 - 1) (a + (b - a) / 4 * 1)
      (a + (b - a) / 4 * 1 + 1) 0
    rw [hsi] at mi
    generalize hsj : (median_func less data (a + (b - a) / 4 * 2 - 1) (a + (b - a) / 4 * 2)
      (a + (b - a) / 4 * 2 + 1) ri.2) = rj
    have mj := median_func_mem less data (a + (b - a) / 4 * 2 - 1) (a + (b - a) / 4 * 2)
      (a + (b - a) / 4 * 2 + 1) ri.2
    rw [hsj] at mj
    generalize hsk : (median_func less data (a + (b - a) / 4 * 3 - 1) (a + (b - a) / 4 * 3)
      (a + (b - a) / 4 * 3 + 1) rj.2) = rk
    have mk := median_func_mem less data (a + (b - a) / 4 * 3 - 1) (a + (b - a) / 4 * 3)
      (a + (b - a) / 4 * 3 + 1) rj.2
    rw [hsk] at mk
    have mm := median_func_mem less data ri.1 rj.1 rk.1 rk.2
    omega
  · simp only [if_neg h50]
    have mm := median_func_mem less data (a + (b - a) / 4 * 1) (a + (b - a) / 4 * 2)
      (a + (b - a) / 4 * 3) 0
    omega

end PatternLemmas

section HeapLemmas

variable {α : Type} [Inhabited α]

theorem forDown_induct {σ : Type} (f : Nat → σ → σ) (P : Nat → σ → Prop) (n : Nat) (s : σ)
    (h0 : P n s) (hstep : ∀ i t, i < n → P (i + 1) t → P i (f i t)) :
    P 0 (forDown f n s) := by
  induction n generalizing s with
  | zero => simpa [forDown] using h0
  | succ n ih =>
    rw [forDown]
    exact ih (f n s) (hstep n s (by omega) h0) (fun i t hi hP => hstep i t (by omega) hP)

theorem siftDownLoop_spec [DecidableEq α] {less : α → α → Bool} {ord : α → Int} (h : Ranked less ord)
    (first lo hi : Nat) : ∀ (fuel root : Nat) (data : List α), hi ≤ root + fuel → lo ≤ root →
      first + hi ≤ data.length → HeapExcept ord data first lo hi root →
      Shuffle (first + root) (first + hi) data (siftDownLoop less hi first fuel root data) ∧
      HeapFrom ord (siftDownLoop less hi first fuel root data) first lo hi := by
  intro fuel
  induction fuel with
  | zero =>
    intro root data hf hlo hlen hex
    simp only [siftDownLoop]
    refine ⟨Shuffle.refl _ _ _, ?_⟩
    intro k c hk hc hch
    by_cases hkr : k = root
    · omega
    · exact hex.1 k c hk hkr hc hch
  | succ fuel ih =>
    intro root data hf hlo hlen hex
    by_cases hleaf : hi ≤ 2 * root + 1
    · rw [siftDownLoop, if_pos hleaf]
      refine ⟨Shuffle.refl _ _ _, ?_⟩
      intro k c hk hc hch
      by_cases hkr : k = root
      · omega
      · exact hex.1 k c hk hkr hc hch
    · rw [siftDownLoop, if_neg hleaf]
      dsimp only
      -- the larger child
      have hsel : ∃ child, (if 2 * root + 1 + 1 < hi ∧
            Less less data (first + (2 * root + 1)) (first + (2 * root + 1) + 1) = true then
            2 * root + 1 + 1 else 2 * root + 1) = child ∧
          (child = 2 * root + 1 ∨ child = 2 * root + 2) ∧ child < hi ∧
          (∀ c, (c = 2 * root + 1 ∨ c = 2 * root + 2) → c < hi →
            ord (elem data (first + c)) ≤ ord (elem data (first + child))) := by
        by_cases hs : 2 * root + 1 + 1 < hi ∧
            Less less data (first + (2 * root + 1)) (first + (2 * root + 1) + 1) = true
        · refine ⟨2 * root + 1 + 1, by rw [if_pos hs], Or.inr rfl, hs.1, ?_⟩
          intro c hc hch
          rcases hc with hc | hc
          · subst hc
            exact le_of_lt ((Less_iff h _ _ _).1 hs.2)
          · subst hc
            exact le_refl _
        · refine ⟨2 * root + 1, by rw [if_neg hs], Or.inl rfl, by omega, ?_⟩
          intro c hc hch
          rcases hc with hc | hc
          · subst hc
            exact le_refl _
          · subst hc
            have hnl : Less less data (first + (2 * root + 1))
                (first + (2 * root + 1) + 1) = false := by
              cases hL : Less less data (first + (2 * root + 1)) (first + (2 * root + 1) + 1)
              · rfl
              · exact absurd ⟨by omega, hL⟩ hs
            have := (Less_false_iff h _ _ _).1 hnl
            exact this
      obtain ⟨child, hchild, hcc, hchi, hmax⟩ := hsel
      rw [hchild]
      by_cases hL : Less less data (first + root) (first + child) = true
      · rw [if_pos hL]
        have hlt : ord (elem data (first + root)) < ord (elem data (first + child)) :=
          (Less_iff h _ _ _).1 hL
        have hs : Shuffle (first + root) (first + hi) data
            (Swap data (first + root) (first + child)) :=
          Shuffle.swap _ _ data _ _ (le_refl _) (by omega) (by omega) (by omega) hlen
        have he : ∀ x, elem (Swap data (first + root) (first + child)) (first + x) =
            if x = child then elem data (first + root)
            else if x = root then elem data (first + child) else elem data (first + x) := by
          intro x
          rw [elem_Swap data (first + root) (first + child) (first + x) (by omega) (by omega)]
          by_cases h1 : x = child
          · rw [if_pos (by omega : first + x = first + child), if_pos h1]
          · rw [if_neg (by omega : ¬ first + x = first + child), if_neg h1]
            by_cases h2 : x = root
            · rw [if_pos (by omega : first + x = first + root), if_pos h2]
            · rw [if_neg (by omega : ¬ first + x = first + root), if_neg h2]
        have hrec := ih child (Swap data (first + root) (first + child)) (by omega) (by omega)
          (by rw [length_Swap]; exact hlen)
          ⟨by
            intro k c hk hkc hc hch
            by_cases hkr : k = root
            · subst hkr
              rw [he k, he c, if_neg hkc, if_pos rfl, if_neg (by omega : ¬ c = k)]
              by_cases hcc2 : c = child
              · rw [if_pos hcc2]
                exact le_of_lt hlt
              · rw [if_neg hcc2]
                exact hmax c hc hch
            · rw [he k, he c, if_neg hkc, if_neg hkr, if_neg (by omega : ¬ c = child)]
              by_cases hcr : c = root
              · rw [if_pos hcr]
                exact hex.2 k child hk (by omega) hcc hchi
              · rw [if_neg hcr]
                exact hex.1 k c hk hkr hc hch,
          by
            intro p c hp hpc hc hch
            have hpr : p = root := by omega
            subst hpr
            rw [he p, he c, if_neg (by omega : ¬ p = child), if_pos rfl,
              if_neg (by omega : ¬ c = child), if_neg (by omega : ¬ c = p)]
            exact hex.1 child c (by omega) (by omega) hc hch⟩
        exact ⟨hs.trans (hrec.1.mono (by omega) (le_refl _)), hrec.2⟩
      · rw [if_neg hL]
        have hnl : Less less data (first + root) (first + child) = false := by
          cases hL2 : Less less data (first + root) (first + child)
          · rfl
          · exact absurd hL2 hL
        have hle := (Less_false_iff h _ _ _).1 hnl
        refine ⟨Shuffle.refl _ _ _, ?_⟩
        intro k c hk hc hch
        by_cases hkr : k = root
        · subst hkr
          exact le_trans (hmax c hc hch) hle
        · exact hex.1 k c hk hkr hc hch

theorem siftDown_func_spec [DecidableEq α] {less : α → α → Bool} {ord : α → Int} (h : Ranked less ord)
    (data : List α) (first lo hi : Nat) (hlen : first + hi ≤ data.length)
    (hex : HeapExcept ord data first lo hi lo) :
    Shuffle first (first + hi) data (siftDown_func less data lo hi first) ∧
    HeapFrom ord (siftDown_func less data lo hi first) first lo hi := by
  have := siftDownLoop_spec h first lo hi hi lo data (by omega) (le_refl _) hlen hex
  exact ⟨this.1.mono (by omega) (le_refl _), this.2⟩

theorem HeapFrom.root_max {ord : α → Int} {data : List α} {first n : Nat}
    (hh : HeapFrom ord data first 0 n) :
    ∀ k, k < n → ord (elem data (first + k)) ≤ ord (elem data (first + 0)) := by
  intro k
  induction k using Nat.strong_induction_on with
  | _ k ih =>
    intro hk
    by_cases hk0 : k = 0
    · subst hk0
      exact le_refl _
    · have hp := ih ((k - 1) / 2) (by omega) (by omega)
      exact le_trans (hh ((k - 1) / 2) k (Nat.zero_le _) (by omega) hk) hp

theorem heapSort_func_spec [DecidableEq α] {less : α → α → Bool} {ord : α → Int} (h : Ranked less ord)
    (data : List α) (a b : Nat) (hab : a ≤ b) (hb : b ≤ data.length) :
    Shuffle a b data (heapSort_func less data a b) ∧
    SortedOn ord (heapSort_func less data a b) a b := by
  unfold heapSort_func
  dsimp only
  have hbe : a + (b - a) = b := by omega
  -- building the heap
  have build := forDown_induct (fun i d => siftDown_func less d i (b - a) a)
    (fun i d => Shuffle a b data d ∧ HeapFrom ord d a i (b - a)) ((b - a - 1) / 2 + 1) data
    ⟨Shuffle.refl _ _ _, fun k c hk hc hch => by omega⟩
    (by
      intro i t hi hP
      have := siftDown_func_spec h t a i (b - a) (by rw [hP.1.length]; omega)
        ⟨fun k c hk hkr hc hch => hP.2 k c (by omega) hc hch,
          fun p c hp hpc hc hch => by omega⟩
      rw [hbe] at this
      exact ⟨hP.1.trans this.1, this.2⟩)
  generalize forDown (fun i d => siftDown_func less d i (b - a) a) ((b - a - 1) / 2 + 1)
    data = heaped at build
  -- popping the greatest element
  have pop := forDown_induct
    (fun i d => siftDown_func less (Swap d a (a + i)) 0 i a)
    (fun i d => Shuffle a b data d ∧ HeapFrom ord d a 0 i ∧
      (∀ p q, p < i → i ≤ q → q < b - a →
        ord (elem d (a + p)) ≤ ord (elem d (a + q))) ∧
      SortedOn ord d (a + i) b) (b - a) heaped
    ⟨build.1, build.2, fun p q hp hq hqb => by omega, fun p q hp hpq hq => by omega⟩
    (by
      intro i t hi hP
      dsimp only at hP ⊢
      obtain ⟨hsh, hheap, hcross, hsorted⟩ := hP
      have htlen : t.length = data.length := hsh.length
      have hmax := hheap.root_max
      have he : ∀ x, elem (Swap t a (a + i)) (a + x) =
          if x = i then elem t (a + 0)
          else if x = 0 then elem t (a + i) else elem t (a + x) := by
        intro x
        rw [elem_Swap t a (a + i) (a + x) (by omega) (by omega)]
        by_cases h1 : x = i
        · rw [if_pos (by omega : a + x = a + i), if_pos h1]
          rfl
        · rw [if_neg (by omega : ¬ a + x = a + i), if_neg h1]
          by_cases h2 : x = 0
          · rw [if_pos (by omega : a + x = a), if_pos h2]
          · rw [if_neg (by omega : ¬ a + x = a), if_neg h2]
      have hsw : Shuffle a b t (Swap t a (a + i)) :=
        Shuffle.swap a b t a (a + i) (le_refl _) (by omega) (by omega) (by omega)
          (by omega)
      have hsift := siftDown_func_spec h (Swap t a (a + i)) a 0 i
        (by rw [length_Swap]; omega)
        ⟨by
          intro k c hk hk0 hc hch
          rw [he k, he c, if_neg (by omega : ¬ k = i), if_neg hk0,
            if_neg (by omega : ¬ c = i), if_neg (by omega : ¬ c = 0)]
          exact hheap k c hk hc (by omega),
        fun p c hp hpc hc hch => by omega⟩
      generalize siftDown_func less (Swap t a (a + i)) 0 i a = t2 at hsift ⊢
      obtain ⟨hs2, hheap2⟩ := hsift
      have hout : ∀ x, i ≤ x → elem t2 (a + x) = elem (Swap t a (a + i)) (a + x) :=
        fun x hx => hs2.outside (a + x) (Or.inr (by omega))
      have hin : ∀ p, p < i → ∃ p2, p2 < i ∧ elem t2 (a + p) = elem (Swap t a (a + i)) (a + p2) := by
        intro p hp
        obtain ⟨k2, h1, h2, h3⟩ := hs2.inside (a + p) (by omega) (by omega)
        exact ⟨k2 - a, by omega, by rw [h3]; congr 1; omega⟩
      refine ⟨hsh.trans (hsw.trans (hs2.mono (le_refl _) (by omega))), hheap2, ?_, ?_⟩
      · intro p q hp hq hqb
        obtain ⟨p2, hp2, hpe⟩ := hin p hp
        rw [hpe, hout q hq, he p2, he q, if_neg (by omega : ¬ p2 = i)]
        by_cases hqi : q = i
        · rw [if_pos hqi]
          by_cases hp0 : p2 = 0
          · rw [if_pos hp0]
            exact hmax i (by omega)
          · rw [if_neg hp0]
            exact hmax p2 (by omega)
        · rw [if_neg hqi, if_neg (by omega : ¬ q = 0)]
          by_cases hp0 : p2 = 0
          · rw [if_pos hp0]
            exact hcross i q (by omega) (by omega) hqb
          · rw [if_neg hp0]
            exact hcross p2 q (by omega) (by omega) hqb
      · intro x y hx hxy hy
        have ex : x = a + (x - a) := by omega
        have ey : y = a + (y - a) := by omega
        rw [ex, ey, hout (x - a) (by omega), hout (y - a) (by omega), he, he,
          if_neg (by omega : ¬ y - a = i), if_neg (by omega : ¬ y - a = 0)]
        by_cases hxi : x - a = i
        · rw [if_pos hxi]
          exact hcross 0 (y - a) (by omega) (by omega) (by omega)
        · rw [if_neg hxi, if_neg (by omega : ¬ x - a = 0), ← ex, ← ey]
          exact hsorted x y (by omega) hxy hy)
  obtain ⟨p1, _, _, p4⟩ := pop
  exact ⟨p1, by simpa using p4⟩

end HeapLemmas

section PdqsortLemmas

variable {α : Type} [Inhabited α]

theorem Floored.shrink {ord : α → Int} {data : List α} {a b b2 : Nat}
    (hf : Floored ord data a b) (hb : b2 ≤ b) : Floored ord data a b2 := by
  rcases hf with h0 | hf
  · exact Or.inl h0
  · exact Or.inr (fun k hk1 hk2 => hf k hk1 (by omega))

/-- Sorted halves around a pivot that separates them make a sorted whole. -/
theorem SortedOn.around_pivot {ord : α → Int} {l r : List α} {a mid b : Nat}
    (hleft : ∀ k, a ≤ k → k < mid → ord (elem l k) < ord (elem l mid))
    (hright : ∀ k, mid < k → k < b → ord (elem l mid) ≤ ord (elem l k))
    (hm : elem r mid = elem l mid)
    (hL : ∀ k, a ≤ k → k < mid → ∃ k2, a ≤ k2 ∧ k2 < mid ∧ elem r k = elem l k2)
    (hR : ∀ k, mid < k → k < b → ∃ k2, mid < k2 ∧ k2 < b ∧ elem r k = elem l k2)
    (hs1 : SortedOn ord r a mid) (hs2 : SortedOn ord r (mid + 1) b) :
    SortedOn ord r a b := by
  have hlo : ∀ k, a ≤ k → k < mid → ord (elem r k) < ord (elem l mid) := by
    intro k h1 h2
    obtain ⟨k2, h3, h4, h5⟩ := hL k h1 h2
    rw [h5]
    exact hleft k2 h3 h4
  have hhi : ∀ k, mid < k → k < b → ord (elem l mid) ≤ ord (elem r k) := by
    intro k h1 h2
    obtain ⟨k2, h3, h4, h5⟩ := hR k h1 h2
    rw [h5]
    exact hright k2 h3 h4
  intro p q hp hpq hq
  by_cases hq1 : q < mid
  · exact hs1 p q hp hpq hq1
  · by_cases hp1 : mid < p
    · exact hs2 p q (by omega) hpq hq
    · by_cases hpm : p = mid
      · rw [hpm, hm]
        exact hhi q (by omega) hq
      · have h1 := hlo p hp (by omega)
        by_cases hqm : q = mid
        · rw [hqm, hm]
          exact le_of_lt h1
        · exact le_trans (le_of_lt h1) (hhi q (by omega) hq)

theorem pdqsort_func_spec [DecidableEq α] {less : α → α → Bool} {ord : α → Int} (h : Ranked less ord)
    (next : Nat → Nat) : ∀ (fuel : Nat) (data : List α) (a b limit : Nat)
      (wasBalanced wasPartitioned : Bool), a ≤ b → b ≤ data.length → b - a < fuel →
      Floored ord data a b →
      Shuffle a b data
        (pdqsort_func less next fuel data a b limit wasBalanced wasPartitioned) ∧
      SortedOn ord
        (pdqsort_func less next fuel data a b limit wasBalanced wasPartitioned) a b := by
  intro fuel
  induction fuel with
  | zero =>
    intro data a b limit wb wp _ _ hf _
    omega
  | succ fuel ih =>
    intro data a b limit wb wp hab hb hf hfl
    by_cases h12 : b - a ≤ 12
    · rw [pdqsort_func]
      dsimp only
      rw [if_pos h12]
      exact insertionSort_func_spec h data a b hb
    · by_cases hlim : limit = 0
      · rw [pdqsort_func]
        dsimp only
        rw [if_neg h12, if_pos hlim]
        exact heapSort_func_spec h data a b hab hb
      · rw [pdqsort_func]
        dsimp only
        rw [if_neg h12, if_neg hlim]
        -- breaking patterns
        have hd1 : Shuffle a b data
            (if wb = true then data else breakPatterns_func next data a b) := by
          split
          · exact Shuffle.refl _ _ _
          · exact breakPatterns_func_shuffle next data a b hb
        generalize (if wb = true then data else breakPatterns_func next data a b) = d1
          at hd1 ⊢
        generalize (if wb = true then limit else limit - 1) = limit1
        have hd1len : b ≤ d1.length := by rw [hd1.length]; exact hb
        -- the pivot
        have hph := choosePivot_func_bounds less d1 a b (by omega)
        generalize choosePivot_func less d1 a b = ph at hph ⊢
        have hd2 : Shuffle a b d1
            (if ph.2 = sortedHint.decreasingHint then reverseRange_func d1 a b else d1) := by
          split
          · exact reverseRange_func_shuffle d1 a b (by omega) hd1len
          · exact Shuffle.refl _ _ _
        generalize (if ph.2 = sortedHint.decreasingHint then reverseRange_func d1 a b
          else d1) = d2 at hd2 ⊢
        have hpiv : a ≤ (if ph.2 = sortedHint.decreasingHint then b - 1 - (ph.1 - a)
              else ph.1) ∧
            (if ph.2 = sortedHint.decreasingHint then b - 1 - (ph.1 - a) else ph.1) < b := by
          split <;> omega
        generalize (if ph.2 = sortedHint.decreasingHint then b - 1 - (ph.1 - a)
          else ph.1) = pivot at hpiv ⊢
        generalize (if ph.2 = sortedHint.decreasingHint then sortedHint.increasingHint
          else ph.2) = hint
        have hd12 : Shuffle a b data d2 := hd1.trans hd2
        have hd2len : b ≤ d2.length := by rw [hd12.length]; exact hb
        have hd2f : Floored ord d2 a b := hd12.floored (le_refl _) (le_refl _) hfl
        -- the attempt at a partial insertion sort
        have htried : Shuffle a b d2
              (if wb = true ∧ wp = true ∧ hint = sortedHint.increasingHint then
                partialInsertionSort_func less d2 a b else (d2, false)).1 ∧
            ((if wb = true ∧ wp = true ∧ hint = sortedHint.increasingHint then
                partialInsertionSort_func less d2 a b else (d2, false)).2 = true →
              SortedOn ord
                (if wb = true ∧ wp = true ∧ hint = sortedHint.increasingHint then
                  partialInsertionSort_func less d2 a b else (d2, false)).1 a b) := by
          split
          · exact partialInsertionSort_func_spec h d2 a b (by omega) hd2len hd2f
          · exact ⟨Shuffle.refl _ _ _, fun hf => Bool.noConfusion hf⟩
        generalize (if wb = true ∧ wp = true ∧ hint = sortedHint.increasingHint then
          partialInsertionSort_func less d2 a b else (d2, false)) = tried at htried ⊢
        obtain ⟨ht1, ht2⟩ := htried
        by_cases hdone : tried.2 = true
        · rw [if_pos hdone]
          exact ⟨hd12.trans ht1, ht2 hdone⟩
        · rw [if_neg hdone]
          have hd3 : Shuffle a b data tried.1 := hd12.trans ht1
          have hd3len : b ≤ tried.1.length := by rw [hd3.length]; exact hb
          have hd3f : Floored ord tried.1 a b := hd3.floored (le_refl _) (le_refl _) hfl
          generalize tried.1 = d3 at hd3 hd3len hd3f ⊢
          by_cases hpe : 0 < a ∧ Less less d3 (a - 1) pivot = false
          · -- the pivot equals the element before the slice
            rw [if_pos hpe]
            have hple : ord (elem d3 pivot) ≤ ord (elem d3 (a - 1)) :=
              (Less_false_iff h _ _ _).1 hpe.2
            obtain ⟨e1, e2, e3, e4, e5⟩ :=
              partitionEqual_func_spec h d3 a b pivot hpiv.1 hpiv.2 hd3len _ rfl
            generalize partitionEqual_func less d3 a b pivot = pe at e1 e2 e3 e4 e5 ⊢
            have hpef : Floored ord pe.1 a b := e1.floored (le_refl _) (le_refl _) hd3f
            have hfloor : ∀ k, a ≤ k → k < b → ord (elem d3 (a - 1)) ≤ ord (elem pe.1 k) := by
              intro k hk1 hk2
              rcases hpef with h0 | hpef
              · omega
              · have := hpef k hk1 hk2
                rw [e1.outside (a - 1) (Or.inl (by omega))] at this
                exact this
            have hpelen : b ≤ pe.1.length := by rw [e1.length]; exact hd3len
            have hrec := ih pe.1 pe.2 b limit1 wb wp e3 hpelen (by omega)
              (Or.inr (fun k hk1 hk2 =>
                le_trans (e4 (pe.2 - 1) (by omega) (by omega)) (le_of_lt (e5 k hk1 hk2))))
            generalize pdqsort_func less next fuel pe.1 pe.2 b limit1 wb wp = r at hrec ⊢
            obtain ⟨r1, r2⟩ := hrec
            refine ⟨hd3.trans (e1.trans (r1.mono (by omega) (le_refl _))), ?_⟩
            intro p q hp hpq hq
            by_cases hp1 : pe.2 ≤ p
            · exact r2 p q hp1 hpq hq
            · rw [r1.outside p (Or.inl (by omega))]
              have hpv := e4 p hp (by omega)
              by_cases hq1 : pe.2 ≤ q
              · obtain ⟨q2, h3, h4, h5⟩ := r1.inside q hq1 hq
                rw [h5]
                exact le_trans hpv (le_of_lt (e5 q2 h3 h4))
              · rw [r1.outside q (Or.inl (by omega))]
                exact le_trans hpv (le_trans hple (hfloor q (by omega) hq))
          · -- a partition around the pivot
            rw [if_neg hpe]
            obtain ⟨e1, e2, e3, e4, e5⟩ :=
              partition_func_spec h d3 a b pivot hpiv.1 hpiv.2 hd3len _ rfl
            generalize partition_func less d3 a b pivot = pr at e1 e2 e3 e4 e5 ⊢
            have hprlen : b ≤ pr.1.length := by rw [e1.length]; exact hd3len
            have hprf : Floored ord pr.1 a b := e1.floored (le_refl _) (le_refl _) hd3f
            by_cases hside : pr.2.1 - a < b - pr.2.1
            · rw [if_pos hside]
              have hrec1 := ih pr.1 a pr.2.1 limit1 true true e2 (by omega) (by omega)
                (hprf.shrink (by omega))
              generalize pdqsort_func less next fuel pr.1 a pr.2.1 limit1 true true = x
                at hrec1 ⊢
              obtain ⟨x1, x2⟩ := hrec1
              have hrec2 := ih x (pr.2.1 + 1) b limit1
                (decide ((b - a) / 8 ≤ pr.2.1 - a)) pr.2.2 (by omega)
                (by rw [x1.length]; exact hprlen) (by omega)
                (Or.inr (fun k hk1 hk2 => by
                  have e : pr.2.1 + 1 - 1 = pr.2.1 := by omega
                  rw [e, x1.outside pr.2.1 (Or.inr (le_refl _)),
                    x1.outside k (Or.inr (by omega))]
                  exact e5 k (by omega) hk2))
              generalize pdqsort_func less next fuel x (pr.2.1 + 1) b limit1
                (decide ((b - a) / 8 ≤ pr.2.1 - a)) pr.2.2 = r at hrec2 ⊢
              obtain ⟨r1, r2⟩ := hrec2
              refine ⟨hd3.trans (e1.trans ((x1.mono (le_refl _) (by omega)).trans
                (r1.mono (by omega) (le_refl _)))), ?_⟩
              refine SortedOn.around_pivot e4 e5 ?_ ?_ ?_ ?_ r2
              · rw [r1.outside _ (Or.inl (by omega)), x1.outside _ (Or.inr (le_refl _))]
              · intro k hk1 hk2
                obtain ⟨k2, h3, h4, h5⟩ := x1.inside k hk1 hk2
                exact ⟨k2, h3, h4, by rw [r1.outside k (Or.inl (by omega)), h5]⟩
              · intro k hk1 hk2
                obtain ⟨k2, h3, h4, h5⟩ := r1.inside k (by omega) hk2
                exact ⟨k2, by omega, h4, by rw [h5, x1.outside k2 (Or.inr (by omega))]⟩
              · exact x2.of_agree (fun k hk1 hk2 => r1.outside k (Or.inl (by omega)))
            · rw [if_neg hside]
              have hrec1 := ih pr.1 (pr.2.1 + 1) b limit1 true true (by omega) hprlen
                (by omega) (Or.inr (fun k hk1 hk2 => by
                  have e : pr.2.1 + 1 - 1 = pr.2.1 := by omega
                  rw [e]
                  exact e5 k (by omega) hk2))
              generalize pdqsort_func less next fuel pr.1 (pr.2.1 + 1) b limit1 true true = x
                at hrec1 ⊢
              obtain ⟨x1, x2⟩ := hrec1
              have hrec2 := ih x a pr.2.1 limit1
                (decide ((b - a) / 8 ≤ b - pr.2.1)) pr.2.2 e2
                (by rw [x1.length]; omega) (by omega)
                ((x1.floored (by omega) (le_refl _) hprf).shrink (by omega))
              generalize pdqsort_func less next fuel x a pr.2.1 limit1
                (decide ((b - a) / 8 ≤ b - pr.2.1)) pr.2.2 = r at hrec2 ⊢
              obtain ⟨r1, r2⟩ := hrec2
              refine ⟨hd3.trans (e1.trans ((x1.mono (by omega) (le_refl _)).trans
                (r1.mono (le_refl _) (by omega)))), ?_⟩
              refine SortedOn.around_pivot e4 e5 ?_ ?_ ?_ r2 ?_
              · rw [r1.outside _ (Or.inr (le_refl _)), x1.outside _ (Or.inl (by omega))]
              · intro k hk1 hk2
                obtain ⟨k2, h3, h4, h5⟩ := r1.inside k hk1 hk2
                exact ⟨k2, h3, h4, by rw [h5, x1.outside k2 (Or.inl (by omega))]⟩
              · intro k hk1 hk2
                obtain ⟨k2, h3, h4, h5⟩ := x1.inside k (by omega) hk2
                exact ⟨k2, by omega, h4, by rw [r1.outside k (Or.inr (by omega)), h5]⟩
              · exact x2.of_agree (fun k hk1 hk2 => r1.outside k (Or.inr (by omega)))

theorem Slice_spec [DecidableEq α] {less : α → α → Bool} {ord : α → Int} (h : Ranked less ord)
    (next : Nat → Nat) (x : List α) :
    (Slice less next x).Perm x ∧
    (Slice less next x).Pairwise (fun p q => ord p ≤ ord q) := by
  obtain ⟨h1, h2⟩ := pdqsort_func_spec h next (x.length + 1) x 0 x.length (bitsLen x.length)
    true true (Nat.zero_le _) (le_refl _) (by omega) (Or.inl rfl)
  refine ⟨h1.perm, ?_⟩
  unfold Slice
  rw [List.pairwise_iff_getElem]
  intro i j hi hj hij
  rw [← elem_eq_getElem _ i hi, ← elem_eq_getElem _ j hj]
  exact h2 i j (Nat.zero_le _) hij (by rw [← h1.length]; exact hj)

end PdqsortLemmas

/-! ## Lemmas on `SortByDateDesc` -/

theorem After_ranked :
    Ranked (fun x y : Article => x.Datetime.After y.Datetime)
      (fun x => -x.Datetime.nanos) := by
  intro x y
  simp only [Time.After, decide_eq_true_eq]
  omega

theorem SortByDateDesc_perm (next : Nat → Nat) (l : List Article) :
    (SortByDateDesc next l).Perm l :=
  (Slice_spec After_ranked next l).1

theorem SortByDateDesc_pairwise (next : Nat → Nat) (l : List Article) :
    (SortByDateDesc next l).Pairwise (fun p q => q.Datetime.nanos ≤ p.Datetime.nanos) := by
  refine (Slice_spec After_ranked next l).2.imp ?_
  intro p q hpq
  omega

theorem SortByDateDesc_links_nodup (next : Nat → Nat) (l : List Article)
    (h : (links l).Nodup) : (links (SortByDateDesc next l)).Nodup :=
  (((SortByDateDesc_perm next l).map Article.Link).nodup_iff).2 h


/-- On twenty articles the sort is past its insertion-sort range and partitions; this is the
order it leaves the articles with equal dates in. -/
theorem SortByDateDesc_twenty :
    (SortByDateDesc xorshiftNext twentyArticles).map Article.Title =
      ["i", "r", "c", "o", "l", "f", "k", "q", "t", "b", "h", "e", "n", "m", "d", "p", "a", "j",
        "s", "g"] := by
  set_option maxRecDepth 100000 in decide

/-! ## Lemmas on strings and filtering -/

theorem startsWith_iff (s p : List Char) : startsWith s p = true ↔ ∃ post, s = p ++ post := by
  induction p generalizing s with
  | nil => simp [startsWith]
  | cons d p ih =>
    cases s with
    | nil => simp [startsWith]
    | cons c s =>
      simp only [startsWith, Bool.and_eq_true, decide_eq_true_eq, ih, List.cons_append,
        List.cons.injEq]
      constructor
      · rintro ⟨rfl, post, rfl⟩
        exact ⟨post, rfl, rfl⟩
      · rintro ⟨post, rfl, rfl⟩
        exact ⟨rfl, post, rfl⟩

theorem occursIn_iff (s sub : List Char) :
    occursIn s sub = true ↔ ∃ pre post, s = pre ++ sub ++ post := by
  induction s with
  | nil =>
    simp only [occursIn, startsWith_iff]
    constructor
    · rintro ⟨post, h⟩
      exact ⟨[], post, by simpa using h⟩
    · rintro ⟨pre, post, h⟩
      have h1 : pre ++ sub ++ post = [] := h.symm
      simp only [List.append_eq_nil] at h1
      exact ⟨[], by simp [h1.1.2]⟩
  | cons c s ih =>
    simp only [occursIn, Bool.or_eq_true, startsWith_iff, ih]
    constructor
    · rintro (⟨post, h⟩ | ⟨pre, post, h⟩)
      · exact ⟨[], post, by simpa using h⟩
      · exact ⟨c :: pre, post, by simp [h]⟩
    · rintro ⟨pre, post, h⟩
      cases pre with
      | nil => exact Or.inl ⟨post, by simpa using h⟩
      | cons d pre =>
        simp only [List.cons_append, List.cons.injEq] at h
        exact Or.inr ⟨pre, post, by simpa using h.2⟩

theorem occursIn_nil (s : List Char) : occursIn s [] = true :=
  (occursIn_iff s []).2 ⟨[], s, rfl⟩

theorem filterLoop_eq (keep : Article → Bool) (xs acc : List Article) :
    xs.foldl (fun filtered a => if keep a then filtered ++ [a] else filtered) acc =
      acc ++ xs.filter keep := by
  induction xs generalizing acc with
  | nil => simp
  | cons x xs ih =>
    by_cases h : keep x = true
    · simp [List.foldl_cons, h, ih]
    · simp [List.foldl_cons, h, ih]

theorem FilterByTitle_eq_filter (lower : Char → Char) (articles : List Article) (query : String) :
    FilterByTitle lower articles query =
      articles.filter (fun a => Contains (ToLower lower a.Title) (ToLower lower query)) := by
  by_cases hq : query = ""
  · subst hq
    have : ∀ a : Article, Contains (ToLower lower a.Title) (ToLower lower "") = true := by
      intro a
      simp [Contains, ToLower, occursIn_nil]
    simp [FilterByTitle, this]
  · simp only [FilterByTitle, hq, if_false]
    rw [filterLoop_eq]
    simp

/-! ## Claims on `article.go` -/

/-- C1: for every link that occurs in `a` or in `b`, `MergeArticles a b` holds exactly one
article with that link, namely the first one carrying it in `a` if `a` has one and otherwise
the first one carrying it in `b`. -/
theorem MergeArticles_one_per_link (a b : List Article) (link : String)
    (h : link ∈ links a ∨ link ∈ links b) :
    ∃ x, (firstWithLink link a).orElse (fun _ => firstWithLink link b) = some x ∧
      (MergeArticles a b).filter (fun y => decide (y.Link = link)) = [x] := by
  have hmem : ∃ y ∈ a ++ b, y.Link = link := by
    rcases h with h | h
    · obtain ⟨y, hy, hl⟩ := List.mem_map.1 h
      exact ⟨y, List.mem_append_left _ hy, hl⟩
    · obtain ⟨y, hy, hl⟩ := List.mem_map.1 h
      exact ⟨y, List.mem_append_right _ hy, hl⟩
  have hsome : (firstWithLink link (a ++ b)).isSome = true := by
    obtain ⟨y, hy, hl⟩ := hmem
    unfold firstWithLink
    rw [List.find?_isSome]
    exact ⟨y, hy, by simpa using hl⟩
  obtain ⟨x, hx⟩ := Option.isSome_iff_exists.1 hsome
  refine ⟨x, ?_, ?_⟩
  · rw [← firstWithLink_append, hx]
  · rw [MergeArticles_eq_unseen, unseenByLink_filter, hx]
    simp

/-- Witness of C1: two feeds sharing one link. -/
theorem MergeArticles_one_per_link_witness :
    ∃ x, (firstWithLink "l1" [⟨"a", "t1", ⟨2⟩, "l1"⟩]).orElse
        (fun _ => firstWithLink "l1" [⟨"b", "t2", ⟨1⟩, "l1"⟩, ⟨"b", "t3", ⟨3⟩, "l2"⟩]) = some x ∧
      (MergeArticles [⟨"a", "t1", ⟨2⟩, "l1"⟩]
        [⟨"b", "t2", ⟨1⟩, "l1"⟩, ⟨"b", "t3", ⟨3⟩, "l2"⟩]).filter
          (fun y => decide (y.Link = "l1")) = [x] :=
  MergeArticles_one_per_link _ _ "l1" (Or.inl (by simp [links]))

/-- C3: for every article list, and whatever the generator of the library sort yields,
`SortByDateDesc` leaves a permutation of the input in which every article is followed by one
whose `Datetime` is not later, so no earlier-indexed article is before its successor. -/
theorem SortByDateDesc_sorted_perm (next : Nat → Nat) (articles : List Article) :
    (SortByDateDesc next articles).Perm articles ∧
    (SortByDateDesc next articles).Chain' (fun x y => y.Datetime.nanos ≤ x.Datetime.nanos) ∧
    (SortByDateDesc next articles).Chain' (fun x y => y.Datetime.After x.Datetime = false) := by
  refine ⟨SortByDateDesc_perm next articles, (SortByDateDesc_pairwise next articles).chain', ?_⟩
  refine ((SortByDateDesc_pairwise next articles).imp ?_).chain'
  intro x y hxy
  simp only [Time.After, decide_eq_false_iff_not, not_lt]
  exact hxy

/-- C4: `FilterByTitle articles query` is the sublist of `articles`, in original order, of the
articles whose lower-cased title has the lower-cased query as a contiguous part; with the empty
query it is `articles` itself. -/
theorem FilterByTitle_spec (lower : Char → Char) (articles : List Article) (query : String) :
    FilterByTitle lower articles query =
      articles.filter (fun a => Contains (ToLower lower a.Title) (ToLower lower query)) ∧
    (∀ a : Article, Contains (ToLower lower a.Title) (ToLower lower query) = true ↔
      ∃ pre post, a.Title.data.map lower = pre ++ query.data.map lower ++ post) ∧
    FilterByTitle lower articles "" = articles := by
  refine ⟨FilterByTitle_eq_filter lower articles query, ?_, ?_⟩
  · intro a
    simp only [Contains, ToLower]
    exact occursIn_iff _ _
  · simp [FilterByTitle]

/-- C8, as stated, fails: a primary list with a repeated link is not a leading segment of the
merge, and its second article is dropped. -/
theorem MergeArticles_primary_not_kept :
    (MergeArticles [cachedNews, cachedNewsAgain] []).take [cachedNews, cachedNewsAgain].length ≠
      [cachedNews, cachedNewsAgain] ∧
    cachedNewsAgain ∉ MergeArticles [cachedNews, cachedNewsAgain] [] := by
  decide

/-- C8, amended: the merge is the primary articles whose link has not appeared before them,
in original order, followed by the secondary articles whose link has not appeared before them
(in primary or earlier in secondary), in original order; when the links of primary are pairwise
distinct, the first `len(primary)` elements of the merge are exactly primary. -/
theorem MergeArticles_layout (primary secondary : List Article) :
    MergeArticles primary secondary =
      unseenByLink [] primary ++ unseenByLink (links primary) secondary ∧
    (unseenByLink [] primary).Sublist primary ∧
    (unseenByLink (links primary) secondary).Sublist secondary ∧
    ((links primary).Nodup →
      unseenByLink [] primary = primary ∧
      (MergeArticles primary secondary).take primary.length = primary) := by
  have hsub : ∀ (seen : List String) (xs : List Article), (unseenByLink seen xs).Sublist xs := by
    intro seen xs
    induction xs generalizing seen with
    | nil => simp [unseenByLink]
    | cons x xs ih =>
      by_cases hx : x.Link ∈ seen
      · simpa [unseenByLink, hx] using (ih seen).cons x
      · simpa [unseenByLink, hx] using (ih (x.Link :: seen)).cons₂ x
  have hlay : MergeArticles primary secondary =
      unseenByLink [] primary ++ unseenByLink (links primary) secondary := by
    rw [MergeArticles_eq_unseen]
    obtain ⟨s2, h1, h2⟩ := unseenByLink_append [] primary secondary
    rw [h2]
    congr 1
    exact unseenByLink_congr s2 (links primary) (fun l => by simpa using h1 l) secondary
  refine ⟨hlay, hsub _ _, hsub _ _, ?_⟩
  intro hnd
  have hp : unseenByLink [] primary = primary :=
    unseenByLink_of_nodup [] primary hnd (by simp)
  refine ⟨hp, ?_⟩
  rw [hlay, hp]
  simp

/-- Witness of C8 amended: a primary list with distinct links leads the merge. -/
theorem MergeArticles_layout_witness :
    (links [freshNews, cachedNews]).Nodup ∧
    (MergeArticles [freshNews, cachedNews] [cachedNewsAgain]).take
      [freshNews, cachedNews].length = [freshNews, cachedNews] :=
  ⟨by decide,
    ((MergeArticles_layout [freshNews, cachedNews] [cachedNewsAgain]).2.2.2 (by decide)).2⟩

/-! ## Claims on the sync cycle -/

/-- C2: when the links of the cached collection are pairwise distinct, no link occurs twice in
what a sync cycle publishes, whatever the fresh articles: neither in the sorted merge of fresh
and cached nor in the sorted cache, and so in no `articlesMsg` of `refreshArticles`. -/
theorem published_links_nodup (next : Nat → Nat) (fresh cached : List Article)
    (h : (links cached).Nodup) :
    (links (SortByDateDesc next (MergeArticles fresh cached))).Nodup ∧
    (links (SortByDateDesc next cached)).Nodup ∧
    (∀ (w : World) (cfg : List RSSFeed) (arts : List Article),
      w.LoadArticles = .ok cached → (refreshArticles w cfg).msg = Msg.articlesMsg arts →
        (links arts).Nodup) := by
  have hm : ∀ (nx : Nat → Nat) (xs : List Article),
      (links (SortByDateDesc nx (MergeArticles xs cached))).Nodup := by
    intro nx xs
    apply SortByDateDesc_links_nodup
    rw [MergeArticles_eq_unseen]
    exact (unseenByLink_nodup [] (xs ++ cached)).1
  have hc : ∀ nx : Nat → Nat, (links (SortByDateDesc nx cached)).Nodup :=
    fun nx => SortByDateDesc_links_nodup nx cached h
  refine ⟨hm next fresh, hc next, ?_⟩
  intro w cfg arts hl hmsg
  unfold refreshArticles at hmsg
  rw [hl] at hmsg
  cases hF : FetchArticles w cfg with
  | error e =>
    simp only [hF, Msg.articlesMsg.injEq] at hmsg
    exact hmsg ▸ hc w.xorshift
  | ok got =>
    cases hS : w.SaveArticles got with
    | error e => simp [hF, hS] at hmsg
    | ok u =>
      simp only [hF, hS, Msg.articlesMsg.injEq] at hmsg
      exact hmsg ▸ hm w.xorshift got

/-- Witness of C2: one cached article, one fresh article with the same link and one new. -/
theorem published_links_nodup_witness :
    (links [cachedNews]).Nodup ∧
    (links (SortByDateDesc xorshiftNext
      (MergeArticles [cachedNewsAgain, freshNews] [cachedNews]))).Nodup :=
  ⟨by decide,
    (published_links_nodup xorshiftNext [cachedNewsAgain, freshNews] [cachedNews]
      (by decide)).1⟩

theorem fetchItem_foldl (w : World) (feed : RSSFeed) (items : List Item) (st : FetchState) :
    items.foldl (fetchItem w feed) st =
      { articles := st.articles ++ items.filterMap (articleOf w feed),
        errs := st.errs ++ items.filterMap (issueOf w feed) } := by
  induction items generalizing st with
  | nil => simp
  | cons item rest ih =>
    rw [List.foldl_cons, ih]
    by_cases hp : item.Published = ""
    · simp [fetchItem, articleOf, issueOf, hp]
    · cases ht : parseTime w item.Published with
      | none => simp [fetchItem, articleOf, issueOf, hp, ht]
      | some dt => simp [fetchItem, articleOf, issueOf, hp, ht]

theorem fetchFeed_foldl (w : World) (cfg : List RSSFeed) (st : FetchState) :
    cfg.foldl (fetchFeed w) st =
      { articles := st.articles ++ obtained w cfg, errs := st.errs ++ recorded w cfg } := by
  induction cfg generalizing st with
  | nil => simp [obtained, recorded]
  | cons feed rest ih =>
    rw [List.foldl_cons, ih]
    cases hp : w.ParseURL feed.URL with
    | error err => simp [fetchFeed, obtained, recorded, hp]
    | ok items => simp [fetchFeed, obtained, recorded, hp, fetchItem_foldl]

/-- The loops of `FetchArticles` collect the dated items of the fetched feeds and the errors
of the failed feeds and of the unparseable dates. -/
theorem fetchLoop_eq (w : World) (cfg : List RSSFeed) :
    fetchLoop w cfg = { articles := obtained w cfg, errs := recorded w cfg } := by
  unfold fetchLoop
  rw [fetchFeed_foldl]
  simp

theorem all_failed_fetch (w : World) (cfg : List RSSFeed) (h : everyFeedFailed w cfg = true) :
    obtained w cfg = [] ∧ (recorded w cfg).length = cfg.length := by
  induction cfg with
  | nil => simp [obtained, recorded]
  | cons feed rest ih =>
    simp only [everyFeedFailed, List.all_cons, Bool.and_eq_true] at h
    have hrest : everyFeedFailed w rest = true := h.2
    obtain ⟨h1, h2⟩ := ih hrest
    cases hp : w.ParseURL feed.URL with
    | ok items => simp [hp] at h
    | error err =>
      unfold obtained at h1 ⊢
      unfold recorded at h2 ⊢
      simp only [List.flatMap_cons, hp, List.nil_append, List.length_append, List.length_cons,
        List.length_nil]
      exact ⟨h1, by omega⟩

/-- C5, as stated, fails. With one feed fetched and one fresh article obtained the cycle is
not in the cache-only case, yet a failed write makes it yield the error message instead of
persisting, merging, sorting and publishing. With no feed configured every configured feed
failed and nothing fresh was obtained, yet the cycle writes to the store and, the write
failing, publishes nothing, where the cache-only cycle publishes the sorted cache. -/
theorem sync_paths_not_as_stated :
    (saveFailsWorld.LoadArticles = .ok [cachedNews] ∧
      everyFeedFailed saveFailsWorld [feedB] = false ∧
      obtained saveFailsWorld [feedB] = [freshNews] ∧
      (refreshArticles saveFailsWorld [feedB]).msg = Msg.fetchErrMsg "disk full" ∧
      refreshArticles saveFailsWorld [feedB] ≠
        successCycle saveFailsWorld [feedB] [freshNews] [cachedNews]) ∧
    (everyFeedFailed saveFailsWorld [] = true ∧
      obtained saveFailsWorld [] = [] ∧
      (refreshArticles saveFailsWorld []).msg = Msg.fetchErrMsg "disk full" ∧
      refreshArticles saveFailsWorld [] ≠ cacheOnlyCycle saveFailsWorld [] [cachedNews]) :=
  ⟨⟨rfl, by decide, by decide, by decide, by decide⟩, by decide, by decide, by decide,
    by decide⟩

/-- C5, amended: a sync cycle whose cache load succeeded degrades to cache-only (publishes the
cached set sorted descending and does not write to the store) when at least one feed is
configured and every configured feed failed to fetch. When at least one fresh article was
obtained, or no feed failed and no date failed to parse, it takes the success path: it hands
the fresh articles to the store, and publishes the sorted merge of fresh-then-cached if the
write succeeds, while a failed write makes it yield the error and publish nothing. -/
theorem refreshArticles_paths (w : World) (cfg : List RSSFeed) (cached : List Article)
    (h : w.LoadArticles = .ok cached) :
    (cfg ≠ [] → everyFeedFailed w cfg = true →
      refreshArticles w cfg = cacheOnlyCycle w cfg cached) ∧
    (obtained w cfg ≠ [] ∨ recorded w cfg = [] →
      (w.SaveArticles (obtained w cfg) = .ok () →
        refreshArticles w cfg = successCycle w cfg (obtained w cfg) cached) ∧
      (∀ err, w.SaveArticles (obtained w cfg) = .error err →
        refreshArticles w cfg = writeFailedCycle cfg (obtained w cfg) err)) := by
  have hloop := fetchLoop_eq w cfg
  refine ⟨?_, ?_⟩
  · intro hne hall
    obtain ⟨h1, h2⟩ := all_failed_fetch w cfg hall
    have hpos : 0 < (recorded w cfg).length := by
      rw [h2]
      exact List.length_pos.2 hne
    have hF : FetchArticles w cfg = .error (recorded w cfg) := by
      simp [FetchArticles, hloop, hpos, h1]
    simp [refreshArticles, h, hF, cacheOnlyCycle, loadAndFetch]
  · intro hc
    have hF : FetchArticles w cfg = .ok (obtained w cfg) := by
      have hn : ¬ (0 < (recorded w cfg).length ∧ (obtained w cfg).length = 0) := by
        rintro ⟨ha, hb⟩
        rcases hc with hc | hc
        · exact hc (List.length_eq_zero.1 hb)
        · rw [hc] at ha
          exact Nat.lt_irrefl _ ha
      simp only [FetchArticles, hloop, hn, if_false]
    refine ⟨?_, ?_⟩
    · intro hS
      simp [refreshArticles, h, hF, hS, successCycle, loadAndFetch]
    · intro err hS
      simp [refreshArticles, h, hF, hS, writeFailedCycle, loadAndFetch]

/-- Witness of C5 amended: one feed configured and down, so the cycle is cache-only. -/
theorem refreshArticles_paths_witness :
    feedsDownWorld.LoadArticles = .ok [cachedNews] ∧
    everyFeedFailed feedsDownWorld [feedB] = true ∧
    refreshArticles feedsDownWorld [feedB] = cacheOnlyCycle feedsDownWorld [feedB] [cachedNews] :=
  ⟨rfl, by decide,
    (refreshArticles_paths feedsDownWorld [feedB] [cachedNews] rfl).1 (by decide) (by decide)⟩

/-- C9, as stated, fails: the cache loads, a fresh article is fetched, the write fails, and the
cycle yields the error message instead of the merged view. -/
theorem refreshArticles_save_failure_no_view :
    saveFailsWorld.LoadArticles = .ok [cachedNews] ∧
    FetchArticles saveFailsWorld [feedB] = .ok [freshNews] ∧
    saveFailsWorld.SaveArticles [freshNews] = .error "disk full" ∧
    (refreshArticles saveFailsWorld [feedB]).msg = Msg.fetchErrMsg "disk full" ∧
    (refreshArticles saveFailsWorld [feedB]).msg ≠
      Msg.articlesMsg
        (SortByDateDesc saveFailsWorld.xorshift (MergeArticles [freshNews] [cachedNews])) :=
  ⟨rfl, rfl, rfl, by decide, by decide⟩

/-- C9, amended: when the cache load succeeds and fresh articles are fetched but writing them
to the store fails, the cycle yields a `fetchErrMsg` carrying the write error and no
`articlesMsg`; the merged view is not published. -/
theorem refreshArticles_save_failure (w : World) (cfg : List RSSFeed)
    (cached fresh : List Article) (err : String)
    (hl : w.LoadArticles = .ok cached) (hf : FetchArticles w cfg = .ok fresh)
    (hs : w.SaveArticles fresh = .error err) :
    refreshArticles w cfg =
      { msg := Msg.fetchErrMsg err, effects := loadAndFetch cfg ++ [Effect.saveArticles fresh] } ∧
    ∀ arts, (refreshArticles w cfg).msg ≠ Msg.articlesMsg arts := by
  have hr : refreshArticles w cfg =
      { msg := Msg.fetchErrMsg err,
        effects := loadAndFetch cfg ++ [Effect.saveArticles fresh] } := by
    simp [refreshArticles, hl, hf, hs, loadAndFetch]
  refine ⟨hr, ?_⟩
  intro arts
  rw [hr]
  simp

/-- Witness of C9 amended: the world whose store rejects the write. -/
theorem refreshArticles_save_failure_witness :
    saveFailsWorld.LoadArticles = .ok [cachedNews] ∧
    FetchArticles saveFailsWorld [feedB] = .ok [freshNews] ∧
    saveFailsWorld.SaveArticles [freshNews] = .error "disk full" ∧
    refreshArticles saveFailsWorld [feedB] =
      { msg := Msg.fetchErrMsg "disk full",
        effects := loadAndFetch [feedB] ++ [Effect.saveArticles [freshNews]] } :=
  ⟨rfl, rfl, rfl,
    (refreshArticles_save_failure saveFailsWorld [feedB] [cachedNews] [freshNews] "disk full"
      rfl rfl rfl).1⟩

/-- C10: when the cache load fails the cycle calls nothing but the load, so fetches nothing,
and yields the error message; `Update` on that message returns the model unchanged, in
particular `allArticles`, `displayedArticles`, `searchMode` and the input buffer, opens no link,
and schedules the next refresh fifteen minutes later. -/
theorem load_failure_keeps_view (w : World) (cfg : List RSSFeed) (err : String)
    (h : w.LoadArticles = .error err) :
    refreshArticles w cfg = { msg := Msg.fetchErrMsg err, effects := [Effect.loadArticles] } ∧
    (∀ url, Effect.parseURL url ∉ (refreshArticles w cfg).effects) ∧
    (∀ (W : Widgets) (m : model W),
      (m.Update (refreshArticles w cfg).msg).next = m ∧
      (m.Update (refreshArticles w cfg).msg).cmd = Cmd.tickRefresh (15 * 60 * 1000000000) ∧
      (m.Update (refreshArticles w cfg).msg).opened = []) := by
  have hr : refreshArticles w cfg =
      { msg := Msg.fetchErrMsg err, effects := [Effect.loadArticles] } := by
    simp [refreshArticles, h]
  refine ⟨hr, ?_, ?_⟩
  · intro url
    rw [hr]
    simp
  · intro W m
    rw [hr]
    exact ⟨rfl, rfl, rfl⟩

/-- Witness of C10: the world whose cache cannot be read, and a model with articles on
display. -/
theorem load_failure_keeps_view_witness :
    loadFailsWorld.LoadArticles = .error "querying articles" ∧
    refreshArticles loadFailsWorld [feedB] =
      { msg := Msg.fetchErrMsg "querying articles", effects := [Effect.loadArticles] } ∧
    (jumpState.Update (refreshArticles loadFailsWorld [feedB]).msg).next = jumpState :=
  ⟨rfl, (load_failure_keeps_view loadFailsWorld [feedB] "querying articles" rfl).1,
    ((load_failure_keeps_view loadFailsWorld [feedB] "querying articles" rfl).2.2
      plainWidgets jumpState).1⟩

/-! ## Claims on the view state -/

theorem rowsFrom_get? (humanize : Time → String) (i k : Nat) (l : List Article) :
    (rowsFrom humanize i l).get? k =
      (l.get? k).map (fun a => a.Row humanize ((i : Int) + (k : Int) + 1)) := by
  induction l generalizing i k with
  | nil => simp [rowsFrom]
  | cons a rest ih =>
    cases k with
    | zero => simp [rowsFrom]
    | succ k =>
      simp only [rowsFrom, List.get?_cons_succ, ih]
      have : ((i + 1 : Nat) : Int) + (k : Int) + 1 = (i : Int) + ((k + 1 : Nat) : Int) + 1 := by
        push_cast
        ring
      rw [this]

theorem Atoi_ne_empty (s : String) (n : Int) (h : Atoi s = some n) : s ≠ "" := by
  intro hs
  have h0 : Atoi "" = none := by decide
  rw [hs, h0] at h
  cases h

/-- C6, at the failing input: after `/` and `x` are typed and a sync result with the article
titled `Old news` arrives, the model is in search mode with the buffer `/x`, yet it displays
that article, which the filter for `x` rejects. -/
theorem Update_articlesMsg_ignores_search :
    Reachable plainWidgets [] searchThenRefresh ∧
    searchThenRefresh.searchMode = true ∧
    plainWidgets.Value searchThenRefresh.input = "/x" ∧
    searchThenRefresh.allArticles = [cachedNews] ∧
    searchThenRefresh.displayedArticles = [cachedNews] ∧
    FilterByTitle plainWidgets.lower searchThenRefresh.allArticles
      (TrimPrefix (plainWidgets.Value searchThenRefresh.input) "/") = [] ∧
    searchThenRefresh.displayedArticles ≠
      FilterByTitle plainWidgets.lower searchThenRefresh.allArticles
        (TrimPrefix (plainWidgets.Value searchThenRefresh.input) "/") :=
  ⟨Reachable.step _ _ (Reachable.step _ _ (Reachable.step _ _ Reachable.init)),
    by decide, by decide, by decide, by decide, by decide, by decide⟩

/-- C7: when the input buffer parses as the integer `n`, confirming with Enter, that is
`Update` on the key `enter`, which runs `handleEnter`, hands to `openURL` exactly the link of
`displayedArticles[n-1]`, the article whose row in `ArticlesToRows` is numbered `n`, if
`1 ≤ n ≤ len(displayedArticles)`, and nothing otherwise; what it opens does not depend on
`allArticles`. -/
theorem Update_enter_jump (W : Widgets) (m : model W) (n : Int)
    (h : Atoi (W.Value m.input) = some n) :
    m.Update (Msg.key { text := "enter" }) = m.handleEnter ∧
    ((1 ≤ n ∧ n ≤ (m.displayedArticles.length : Int)) →
      ∃ a, m.displayedArticles.get? (n - 1).toNat = some a ∧
        (m.Update (Msg.key { text := "enter" })).opened = [a.Link] ∧
        (ArticlesToRows W.humanize m.displayedArticles).get? (n - 1).toNat =
          some [Itoa n, a.Source, W.humanize a.Datetime, a.Title]) ∧
    (¬ (1 ≤ n ∧ n ≤ (m.displayedArticles.length : Int)) →
      (m.Update (Msg.key { text := "enter" })).opened = []) ∧
    (∀ other : List Article,
      (model.Update { m with allArticles := other } (Msg.key { text := "enter" })).opened =
        (m.Update (Msg.key { text := "enter" })).opened) := by
  have hne : W.Value m.input ≠ "" := Atoi_ne_empty _ n h
  have hkey : ∀ m2 : model W, m2.Update (Msg.key { text := "enter" }) = m2.handleEnter := by
    intro m2
    simp [model.Update, model.handleKey]
  have hin : ∀ m2 : model W, m2.input = m.input → m2.displayedArticles = m.displayedArticles →
      (1 ≤ n ∧ n ≤ (m.displayedArticles.length : Int)) →
      ∀ a, m.displayedArticles.get? (n - 1).toNat = some a → m2.handleEnter.opened = [a.Link] := by
    intro m2 hi hd hr a hg
    unfold model.handleEnter
    rw [hi, hd]
    simp only [ne_eq, hne, not_false_eq_true, if_true, h, hr, and_self, hg]
  have hout : ∀ m2 : model W, m2.input = m.input → m2.displayedArticles = m.displayedArticles →
      ¬ (1 ≤ n ∧ n ≤ (m.displayedArticles.length : Int)) → m2.handleEnter.opened = [] := by
    intro m2 hi hd hr
    unfold model.handleEnter
    rw [hi, hd]
    simp only [ne_eq, hne, not_false_eq_true, if_true, h, hr, if_false]
  refine ⟨hkey m, ?_, ?_, ?_⟩
  · intro hr
    have hlt : (n - 1).toNat < m.displayedArticles.length := by omega
    have hg := List.get?_eq_get hlt
    refine ⟨m.displayedArticles.get ⟨(n - 1).toNat, hlt⟩, hg, ?_, ?_⟩
    · rw [hkey m]
      exact hin m rfl rfl hr _ hg
    · unfold ArticlesToRows
      rw [rowsFrom_get?, hg]
      have hn : ((0 : Nat) : Int) + (((n - 1).toNat : Nat) : Int) + 1 = n := by omega
      simp only [Option.map_some', hn, Article.Row]
  · intro hr
    rw [hkey m]
    exact hout m rfl rfl hr
  · intro other
    rw [hkey m, hkey]
    by_cases hr : 1 ≤ n ∧ n ≤ (m.displayedArticles.length : Int)
    · have hlt : (n - 1).toNat < m.displayedArticles.length := by omega
      have hg := List.get?_eq_get hlt
      rw [hin m rfl rfl hr _ hg, hin { m with allArticles := other } rfl rfl hr _ hg]
    · rw [hout m rfl rfl hr, hout { m with allArticles := other } rfl rfl hr]

/-- Witness of C7: the buffer `3` with five displayed articles opens the third one. -/
theorem Update_enter_jump_witness :
    Atoi (plainWidgets.Value jumpState.input) = some 3 ∧
    ∃ a, jumpState.displayedArticles.get? 2 = some a ∧
      (jumpState.Update (Msg.key { text := "enter" })).opened = [a.Link] :=
  ⟨by decide,
    let ⟨a, h1, h2, _⟩ := (Update_enter_jump plainWidgets jumpState 3 (by decide)).2.1
      (by decide)
    ⟨a, h1, h2⟩⟩

end Newtu
